import Mathlib

/-!
# TerminalEngineGo: a shallow embedding of the engine package

The Go package `engine` is embedded as follows.

* Go `int`, `rune` and `Color` values are integers (`Int`).  An `int` has 64
  bits: the sums, differences and products the code computes on coordinates
  are taken modulo `2 ^ 64` (`add64`, `sub64`, `mul64`), and the conversion
  `int(math.Abs(float64(v)))` rounds `v` to the nearest `float64`
  (`absViaFloat64`).
* A Go slice is a `List`; an index expression that Go would reject at run
  time (index out of range) is a `GoPanic` in the `Except` monad.
* Pointers to buffers and layers are the values themselves; the buffers
  built by `NewPixelBuffer` have one freshly allocated slice per row, so no
  two rows share storage.
* A counting loop `for i := lo; i < hi; i++` whose bound is not changed by
  its body runs its body on `lo, lo+1, ..., hi-1` (`intRange lo hi`).
* The renderer writes to an `io.Writer`; the stream is the log of the
  strings written to it, oldest first.
* A Go string is a `String`, a sequence of characters; `fmt.Sprint` is a
  parameter, `%d` of a `uint8` is its decimal form, and the matches of the
  pattern `ph` are found as Go's `regexp` finds them: leftmost first, the
  longest run of class characters, without overlap.
-/

namespace Engine

/-! ## Run-time failures and slice indexing -/

/-- The run-time panics of the embedded code. -/
inductive GoPanic where
  | indexOutOfRange
  | makeNegativeLen
deriving DecidableEq, Repr

deriving instance DecidableEq for Except

/-- Slice read `xs[i]` with a Go `int` index. -/
def index {α : Type} (xs : List α) (i : Int) : Except GoPanic α :=
  if i < 0 then .error .indexOutOfRange
  else match xs[i.toNat]? with
    | some a => .ok a
    | none => .error .indexOutOfRange

/-- Slice write `xs[i] = a` with a Go `int` index. -/
def setIndex {α : Type} (xs : List α) (i : Int) (a : α) : Except GoPanic (List α) :=
  if i < 0 then .error .indexOutOfRange
  else if i.toNat < xs.length then .ok (xs.set i.toNat a)
  else .error .indexOutOfRange

/-- The counter values of `for i := lo; i < hi; i++`. -/
def intRange (lo hi : Int) : List Int :=
  (List.range (hi - lo).toNat).map (fun (k : Nat) => lo + (k : Int))

/-! ## Machine arithmetic -/

/-- The values of a Go `int` on a 64-bit platform. -/
def IsInt64 (z : Int) : Prop := -2 ^ 63 ≤ z ∧ z < 2 ^ 63

instance (z : Int) : Decidable (IsInt64 z) := by
  unfold IsInt64; infer_instance

/-- The `int` that an exact result `z` wraps around to. -/
def wrap64 (z : Int) : Int := (z + 2 ^ 63) % 2 ^ 64 - 2 ^ 63

/-- Go `a + b` on `int`. -/
def add64 (a b : Int) : Int := wrap64 (a + b)

/-- Go `a - b` on `int`. -/
def sub64 (a b : Int) : Int := wrap64 (a - b)

/-- Go `a * b` on `int`. -/
def mul64 (a b : Int) : Int := wrap64 (a * b)

/-- The spacing of the `float64` values around the magnitude `a`: 1 below
`2 ^ 53`, and twice as much each time `a` doubles from there. -/
def float64Ulp : Nat → Nat → Nat
  | 0, _ => 1
  | k + 1, a => if a < 2 ^ 53 then 1 else 2 * float64Ulp k (a / 2)

/-- The magnitude of `float64(v)` for an `int` `v` of magnitude `a`: the nearest
multiple of the spacing, the one with the even quotient when `a` lies half way
between two. -/
def roundFloat64 (a : Nat) : Nat :=
  let u := float64Ulp 11 a
  let q := a / u
  let r := a % u
  if 2 * r < u then q * u
  else if 2 * r > u then (q + 1) * u
  else if q % 2 = 0 then q * u
  else (q + 1) * u

/-- Go `int(math.Abs(float64(v)))` for an `int` `v`.  The magnitude `2 ^ 63` is
outside the range of `int`; the language leaves the result of its conversion
to the implementation, and the value taken here is the one amd64 gives, the
smallest `int`. -/
def absViaFloat64 (v : Int) : Int :=
  if (roundFloat64 v.natAbs : Int) < 2 ^ 63 then (roundFloat64 v.natAbs : Int)
  else -2 ^ 63

/-! ## pbuffer.go -/

/-- Go `type Color int`. -/
abbrev Color := Int

def ColorBlack : Color := 0
def ColorRed : Color := 1
def ColorGreen : Color := 2
def ColorYellow : Color := 3
def ColorBlue : Color := 4
def ColorMagenta : Color := 5
def ColorCyan : Color := 6
def ColorWhite : Color := 7

/-- Go `type Pixel struct { Char rune; FG Color; BG Color }`. -/
structure Pixel where
  Char : Int
  FG : Color
  BG : Color
deriving DecidableEq, Repr

/-- The zero value of `Pixel`, which `make` fills a fresh row with. -/
def Pixel.zero : Pixel := ⟨0, 0, 0⟩

/-- Go `type PixelBuffer struct { Width, Height int; Data [][]Pixel }`. -/
structure PixelBuffer where
  Width : Int
  Height : Int
  Data : List (List Pixel)
deriving DecidableEq, Repr

/-- Go `make([]T, n)`: a slice of `n` zero values, a panic when `n < 0`. -/
def makeSlice {α : Type} (zero : α) (n : Int) : Except GoPanic (List α) :=
  if n < 0 then .error .makeNegativeLen else .ok (List.replicate n.toNat zero)

/-- Go `NewPixelBuffer`: the outer slice is made first, then one row per index. -/
def NewPixelBuffer (width height : Int) : Except GoPanic PixelBuffer := do
  let data ← makeSlice ([] : List Pixel) height
  let data ← data.mapM (fun _ => makeSlice Pixel.zero width)
  pure { Width := width, Height := height, Data := data }

/-- The assignment `pb.Data[y][x] = p`. -/
def setCell (pb : PixelBuffer) (y x : Int) (p : Pixel) : Except GoPanic PixelBuffer := do
  let row ← index pb.Data y
  let row ← setIndex row x p
  let data ← setIndex pb.Data y row
  pure { pb with Data := data }

/-- The read `pb.Data[y][x]`. -/
def getCell (pb : PixelBuffer) (y x : Int) : Except GoPanic Pixel := do
  let row ← index pb.Data y
  index row x

/-- Go `(*PixelBuffer).SetPixel`. -/
def SetPixel (pb : PixelBuffer) (x y : Int) (p : Pixel) : Except GoPanic PixelBuffer :=
  if x ≥ 0 ∧ x < pb.Width ∧ y ≥ 0 ∧ y < pb.Height then
    setCell pb y x p
  else
    pure pb

/-- Go `(*PixelBuffer).FillRect`. -/
def FillRect (pb : PixelBuffer) (x y w h : Int) (p : Pixel) : Except GoPanic PixelBuffer :=
  (intRange y (min (add64 y h) pb.Height)).foldlM
    (fun pb i =>
      (intRange x (min (add64 x w) pb.Width)).foldlM (fun pb j => setCell pb i j p) pb)
    pb

/-- The data-model invariant: `Data` has `Height` rows of `Width` cells. -/
def WellFormed (pb : PixelBuffer) : Prop :=
  (pb.Data.length : Int) = pb.Height ∧ ∀ row ∈ pb.Data, (row.length : Int) = pb.Width

instance (pb : PixelBuffer) : Decidable (WellFormed pb) := by
  unfold WellFormed; infer_instance

/-- The content of cell `(x, y)`, when the buffer has one. -/
def cell (pb : PixelBuffer) (x y : Int) : Option Pixel :=
  match getCell pb y x with
  | .ok p => some p
  | .error _ => none

/-- The buffer as `DrawLine` has left it so far, and the points it has passed
to `SetPixel` so far, in call order. -/
structure DrawTrace where
  pb : PixelBuffer
  calls : List (Int × Int)
deriving DecidableEq, Repr

/-- The call `pb.SetPixel(x, y, p)` made by `DrawLine`, recorded. -/
def plot (p : Pixel) (t : DrawTrace) (x y : Int) : Except GoPanic DrawTrace := do
  let pb ← SetPixel t.pb x y p
  pure { pb := pb, calls := t.calls ++ [(x, y)] }

/-- The loop of `DrawLine` for `dx >= dy`: `n` iterations are left, the pen is
at `(x, y)` and the error term is `d`. -/
def drawLoopX (dx dy sx sy : Int) (p : Pixel) :
    Nat → Int → Int → Int → DrawTrace → Except GoPanic DrawTrace
  | 0, _, _, _, t => pure t
  | n + 1, x, y, d, t => do
    let t ← plot p t x y
    if d > 0 then
      drawLoopX dx dy sx sy p n (add64 x sx) (add64 y sy)
        (add64 (sub64 d (mul64 2 dx)) (mul64 2 dy)) t
    else
      drawLoopX dx dy sx sy p n (add64 x sx) y (add64 d (mul64 2 dy)) t

/-- The loop of `DrawLine` for `dx < dy`. -/
def drawLoopY (dx dy sx sy : Int) (p : Pixel) :
    Nat → Int → Int → Int → DrawTrace → Except GoPanic DrawTrace
  | 0, _, _, _, t => pure t
  | n + 1, x, y, d, t => do
    let t ← plot p t x y
    if d > 0 then
      drawLoopY dx dy sx sy p n (add64 x sx) (add64 y sy)
        (add64 (sub64 d (mul64 2 dy)) (mul64 2 dx)) t
    else
      drawLoopY dx dy sx sy p n x (add64 y sy) (add64 d (mul64 2 dx)) t

/-- Go `(*PixelBuffer).DrawLine`.  The loops `for i := 0; i <= dx; i++` run
`dx + 1` times, and not at all for a negative `dx`; `absViaFloat64` never
yields the largest `int`, so `i` does not wrap. -/
def DrawLine (pb : PixelBuffer) (x1 y1 x2 y2 : Int) (p : Pixel) : Except GoPanic DrawTrace :=
  let dx : Int := absViaFloat64 (sub64 x1 x2)
  let dy : Int := absViaFloat64 (sub64 y1 y2)
  let sx : Int := if x1 > x2 then -1 else 1
  let sy : Int := if y1 > y2 then -1 else 1
  if dx ≥ dy then
    drawLoopX dx dy sx sy p (dx + 1).toNat x1 y1 (sub64 (mul64 2 dy) dx) { pb := pb, calls := [] }
  else
    drawLoopY dx dy sx sy p (dy + 1).toNat x1 y1 (sub64 (mul64 2 dx) dy) { pb := pb, calls := [] }

/-- Both loops of `DrawLine` in one, along the axis `a` of the longer extent:
`emit t a b` is the recorded `SetPixel` call of the loop. -/
def axisLoop (emit : DrawTrace → Int → Int → Except GoPanic DrawTrace) (da db sa sb : Int) :
    Nat → Int → Int → Int → DrawTrace → Except GoPanic DrawTrace
  | 0, _, _, _, t => pure t
  | n + 1, a, b, d, t => do
    let t ← emit t a b
    if d > 0 then
      axisLoop emit da db sa sb n (add64 a sa) (add64 b sb)
        (add64 (sub64 d (mul64 2 da)) (mul64 2 db)) t
    else
      axisLoop emit da db sa sb n (add64 a sa) b (add64 d (mul64 2 db)) t

/-- The points of the first loop of `DrawLine` computed in exact integers. -/
def lineLoopX (dx dy sx sy : Int) : Nat → Int → Int → Int → List (Int × Int)
  | 0, _, _, _ => []
  | n + 1, x, y, d =>
    (x, y) ::
      (if d > 0 then lineLoopX dx dy sx sy n (x + sx) (y + sy) (d - 2 * dx + 2 * dy)
       else lineLoopX dx dy sx sy n (x + sx) y (d + 2 * dy))

/-- The points of the second loop of `DrawLine` computed in exact integers. -/
def lineLoopY (dx dy sx sy : Int) : Nat → Int → Int → Int → List (Int × Int)
  | 0, _, _, _ => []
  | n + 1, x, y, d =>
    (x, y) ::
      (if d > 0 then lineLoopY dx dy sx sy n (x + sx) (y + sy) (d - 2 * dy + 2 * dx)
       else lineLoopY dx dy sx sy n x (y + sy) (d + 2 * dx))

/-- The Bresenham path from `(x1, y1)` to `(x2, y2)` computed in exact integers,
which `DrawLine` follows as long as none of its operations wraps or rounds. -/
def linePoints (x1 y1 x2 y2 : Int) : List (Int × Int) :=
  let dx : Int := |x1 - x2|
  let dy : Int := |y1 - y2|
  let sx : Int := if x1 > x2 then -1 else 1
  let sy : Int := if y1 > y2 then -1 else 1
  if dx ≥ dy then
    lineLoopX dx dy sx sy (dx + 1).toNat x1 y1 (2 * dy - dx)
  else
    lineLoopY dx dy sx sy (dy + 1).toNat x1 y1 (2 * dx - dy)

/-! ## compositor.go -/

/-- The values a Go `float32` takes: a dyadic number `m * 2 ^ e`, an infinity
or NaN. -/
inductive Float32 where
  | finite (m : Int) (e : Int)
  | posInf
  | negInf
  | nan
deriving DecidableEq, Repr

/-- The comparison `a > 0.5` on `float32`; it is false for NaN.  For a finite
value, `m * 2 ^ e > 1 / 2` is decided on integers as `m * 2 ^ (e + 1) > 1`. -/
def Float32.gtHalf : Float32 → Bool
  | .finite m e =>
    if e + 1 ≥ 0 then decide (m * 2 ^ (e + 1).toNat > 1)
    else decide (m > 2 ^ (-(e + 1)).toNat)
  | .posInf => true
  | .negInf => false
  | .nan => false

/-- The `float32` nearest to 0.6, `10066330 * 2 ^ (-24)`. -/
def Float32.sixTenths : Float32 := .finite 10066330 (-24)

/-- The `float32` 0.5. -/
def Float32.half : Float32 := .finite 1 (-1)

/-- Go `type Layer struct { Buffer *PixelBuffer; ZIndex int; Alpha float32 }`. -/
structure Layer where
  Buffer : PixelBuffer
  ZIndex : Int
  Alpha : Float32
deriving DecidableEq, Repr

/-- Go `type Compositor struct { Layers []*Layer }`. -/
structure Compositor where
  Layers : List Layer
deriving DecidableEq, Repr

/-- Go `(*Compositor).AddLayer`: appends, without sorting. -/
def Compositor.AddLayer (c : Compositor) (layer : Layer) : Compositor :=
  { c with Layers := c.Layers ++ [layer] }

/-- The body of the innermost loop of `Composite` for one layer cell. -/
def compositeCell (layer : Layer) (result : PixelBuffer) (y x : Int) :
    Except GoPanic PixelBuffer := do
  let pixel ← getCell layer.Buffer y x
  if layer.Alpha.gtHalf then setCell result y x pixel else pure result

/-- The two nested loops of `Composite` over the cells of one layer. -/
def compositeLayer (result : PixelBuffer) (layer : Layer) : Except GoPanic PixelBuffer :=
  (intRange 0 layer.Buffer.Height).foldlM
    (fun result y =>
      (intRange 0 layer.Buffer.Width).foldlM
        (fun result x => compositeCell layer result y x) result)
    result

/-- Go `(*Compositor).Composite`. -/
def Compositor.Composite (c : Compositor) : Except GoPanic PixelBuffer := do
  let first ← index c.Layers 0
  let result ← NewPixelBuffer first.Buffer.Width first.Buffer.Height
  c.Layers.foldlM compositeLayer result

/-- The last layer in insertion order whose `Alpha` exceeds 0.5. -/
def lastVisible (layers : List Layer) : Option Layer :=
  (layers.filter (fun l => l.Alpha.gtHalf)).getLast?

/-! ## renderer.go

The locking, the ticker and the `done` channel of `StandardRenderer` order the
calls in time; the state below is what the calls read and write. -/

/-- The part of `github.com/charmbracelet/x/ansi` the renderer calls.  The
package is not part of the repository, so its constants and functions are
parameters of the embedding. -/
structure Ansi where
  CursorHomePosition : String
  EraseLineRight : String
  EraseScreenBelow : String
  EraseEntireScreen : String
  EraseEntireLine : String
  ShowCursor : String
  HideCursor : String
  SetAltScreenSaveCursorMode : String
  ResetAltScreenSaveCursorMode : String
  CursorUp : Int → String
  CursorPosition : Int → Int → String
  SetWindowTitle : String → String
  StringWidth : String → Int
  Truncate : String → Int → String → String

/-- Go `type StandardRenderer struct`: `out` is the log of the strings written
to the output stream, `buf` the content of the pending `bytes.Buffer`, and
`ignoreLines` the keys of the map of that name. -/
structure StandardRenderer where
  out : List String
  buf : String
  queuedMessageLines : List String
  lastRender : String
  lastRenderedLines : List String
  linesRendered : Int
  altLinesRendered : Int
  cursorHidden : Bool
  altScreenActive : Bool
  width : Int
  height : Int
  ignoreLines : List Int
deriving DecidableEq, Repr

namespace StandardRenderer

/-- Go `NewRenderer`: every field but the stream has its zero value. -/
def NewRenderer (out : List String) : StandardRenderer :=
  { out := out, buf := "", queuedMessageLines := [], lastRender := "",
    lastRenderedLines := [], linesRendered := 0, altLinesRendered := 0,
    cursorHidden := false, altScreenActive := false, width := 0, height := 0,
    ignoreLines := [] }

/-- Go `execute`: one `io.WriteString` on the output stream. -/
def execute (r : StandardRenderer) (seq : String) : StandardRenderer :=
  { r with out := r.out ++ [seq] }

/-- Go `lastLinesRendered`. -/
def lastLinesRendered (r : StandardRenderer) : Int :=
  if r.altScreenActive then r.altLinesRendered else r.linesRendered

/-- Go `Repaint`. -/
def Repaint (r : StandardRenderer) : StandardRenderer :=
  { r with lastRender := "", lastRenderedLines := [] }

/-- Go `Write`: the pending buffer is reset, then filled with `s`, or with one
space when `s` is empty. -/
def Write (r : StandardRenderer) (s : String) : StandardRenderer :=
  let r := { r with buf := "" }
  let s := if s = "" then " " else s
  { r with buf := r.buf ++ s }

end StandardRenderer

/-- Go `strings.Split(s, "\n")` on the characters of `s`. -/
def splitChars : List Char → List (List Char)
  | [] => [[]]
  | c :: cs =>
    if c = Char.ofNat 10 then [] :: splitChars cs
    else
      match splitChars cs with
      | [] => [[c]]
      | l :: ls => (c :: l) :: ls

/-- Go `strings.Split(s, "\n")`. -/
def splitLines (s : String) : List String :=
  (splitChars s.data).map String.mk

namespace StandardRenderer

/-- The first loop of `flush`: one queued message line appended to the frame
buffer `b`. -/
def flushQueuedLine (a : Ansi) (r : StandardRenderer) (b : String) (line : String) : String :=
  let line := if a.StringWidth line > r.width then line ++ a.EraseLineRight else line
  (b ++ line) ++ "\r\n"

/-- The second loop of `flush`: the iteration for index `i` of `newLines`,
appending to the frame buffer `b`. -/
def flushLine (a : Ansi) (r : StandardRenderer) (flushQueuedMessages : Bool)
    (newLines : List String) (b : String) (i : Nat) : String :=
  let canSkip := flushQueuedMessages &&
    (decide (r.lastRenderedLines.length > i) &&
      decide (r.lastRenderedLines.getD i "" = newLines.getD i ""))
  if decide ((i : Int) ∈ r.ignoreLines) || canSkip then
    if i + 1 < newLines.length then b ++ "\n" else b
  else
    let b := if i = 0 ∧ r.lastRender = "" then b ++ "\r" else b
    let line := newLines.getD i ""
    let line := if r.width > 0 then a.Truncate line r.width "" else line
    let line := if a.StringWidth line > r.width then line ++ a.EraseLineRight else line
    let b := b ++ line
    if i + 1 < newLines.length then b ++ "\r\n" else b

/-- Go `flush`. -/
def flush (a : Ansi) (r : StandardRenderer) : StandardRenderer :=
  if r.buf.length = 0 ∨ r.buf = r.lastRender then r
  else
    let buf : String :=
      if r.altScreenActive then a.CursorHomePosition
      else if r.linesRendered < 1 then a.CursorUp (sub64 r.linesRendered 1)
      else ""
    let newLines := splitLines r.buf
    let newLines :=
      if r.height > 0 ∧ (newLines.length : Int) > r.height then
        newLines.drop (newLines.length - r.height.toNat)
      else newLines
    let flushQueuedMessages := decide (r.queuedMessageLines.length > 0) && !r.altScreenActive
    let buf :=
      if flushQueuedMessages then r.queuedMessageLines.foldl (flushQueuedLine a r) buf
      else buf
    let queued := if flushQueuedMessages then [] else r.queuedMessageLines
    let buf := (List.range newLines.length).foldl
      (flushLine a r flushQueuedMessages newLines) buf
    let buf :=
      if r.lastLinesRendered > (newLines.length : Int) then buf ++ a.EraseScreenBelow
      else buf
    let altLines := if r.altScreenActive then (newLines.length : Int) else r.altLinesRendered
    let lines := if r.altScreenActive then r.linesRendered else (newLines.length : Int)
    let buf :=
      if r.altScreenActive then buf ++ a.CursorPosition 0 newLines.length
      else buf ++ "\r"
    { r with
      out := r.out ++ [buf]
      queuedMessageLines := queued
      altLinesRendered := altLines
      linesRendered := lines
      lastRender := r.buf
      lastRenderedLines := newLines
      buf := "" }

/-- Go `Stop`, after the signal to the flush task: a last flush, then the cursor
is shown and the screen erased. -/
def Stop (a : Ansi) (r : StandardRenderer) : StandardRenderer :=
  ((flush a r).execute a.ShowCursor).execute a.EraseEntireScreen

/-- Go `Kill`, after the signal to the flush task. -/
def Kill (a : Ansi) (r : StandardRenderer) : StandardRenderer :=
  (r.execute a.EraseEntireLine).execute "\r"

/-- Go `ClearScreen`. -/
def ClearScreen (a : Ansi) (r : StandardRenderer) : StandardRenderer :=
  ((r.execute a.EraseEntireScreen).execute a.CursorHomePosition).Repaint

/-- Go `AltScreen`. -/
def AltScreen (r : StandardRenderer) : Bool := r.altScreenActive

/-- The cursor-visibility sequence both alt-screen switches end with. -/
def restoreCursor (a : Ansi) (r : StandardRenderer) : StandardRenderer :=
  if r.cursorHidden then r.execute a.HideCursor else r.execute a.ShowCursor

/-- Go `EnterAltScreen`. -/
def EnterAltScreen (a : Ansi) (r : StandardRenderer) : StandardRenderer :=
  if r.altScreenActive then r
  else
    let r := { r with altScreenActive := true }
    let r := r.execute a.SetAltScreenSaveCursorMode
    let r := r.execute a.EraseEntireScreen
    let r := r.execute a.CursorHomePosition
    let r := restoreCursor a r
    let r := { r with altLinesRendered := 0 }
    r.Repaint

/-- Go `ExitAltScreen`. -/
def ExitAltScreen (a : Ansi) (r : StandardRenderer) : StandardRenderer :=
  if !r.altScreenActive then r
  else
    let r := { r with altScreenActive := false }
    let r := r.execute a.ResetAltScreenSaveCursorMode
    let r := restoreCursor a r
    r.Repaint

/-- Go `ShowCursor`. -/
def ShowCursor (a : Ansi) (r : StandardRenderer) : StandardRenderer :=
  { r with cursorHidden := false }.execute a.ShowCursor

/-- Go `HideCursor`. -/
def HideCursor (a : Ansi) (r : StandardRenderer) : StandardRenderer :=
  { r with cursorHidden := true }.execute a.HideCursor

/-- Go `SetWindowTitle`. -/
def SetWindowTitle (a : Ansi) (r : StandardRenderer) (title : String) : StandardRenderer :=
  r.execute (a.SetWindowTitle title)

/-- Go `SetCursor`. -/
def SetCursor (a : Ansi) (r : StandardRenderer) (x y : Int) : StandardRenderer :=
  if r.altScreenActive then r.execute (a.CursorPosition y x) else r

/-- Go `GetSize`. -/
def GetSize (r : StandardRenderer) : Int × Int := (r.width, r.height)

end StandardRenderer

/-! ## types.go -/

/-- Go `type Msg interface{}` with the variants of the package: the nil
interface value, `KeyMsg`, `QuitMsg`, `TickMsg`, `SizeMsg`, and the values an
application defines for itself. -/
inductive Msg where
  | nil
  | KeyMsg (Rune : Int)
  | QuitMsg
  | TickMsg (Time : Int)
  | SizeMsg (Width Height : Int)
  | app (payload : Nat)
deriving DecidableEq, Repr

/-- Go `type Cmd func() Msg`: a deferred effect, known by the message it
yields when it is run. -/
structure Cmd where
  yields : Msg
deriving DecidableEq, Repr

/-- Go `Quit`. -/
def Quit : Msg := .QuitMsg

/-! ## input.go -/

/-- One byte of standard input. -/
abbrev Byte := Fin 256

/-- What one `os.Stdin.Read(buf)` gives: the bytes `buf[:n]` and whether `err`
is non-nil. -/
structure ReadResult where
  data : List Byte
  err : Bool
deriving DecidableEq, Repr

/-- What one iteration of the loop of `ReadInput` does after a read: the
messages it sends and whether the loop goes on (`false`: `ReadInput` returns). -/
structure InputStep where
  sent : List Msg
  continues : Bool
deriving DecidableEq, Repr

/-- The first `switch` of `ReadInput`, on `data[2]` of a CSI sequence. -/
def arrowKey (b : Byte) : Option Msg :=
  if b = 65 then some (.KeyMsg 8593)       -- 'A', up arrow U+2191
  else if b = 66 then some (.KeyMsg 8595)  -- 'B', down arrow U+2193
  else if b = 67 then some (.KeyMsg 8594)  -- 'C', right arrow U+2192
  else if b = 68 then some (.KeyMsg 8592)  -- 'D', left arrow U+2190
  else none

/-- The second `switch` of `ReadInput`, on `data[0]`. -/
def decodeFirst (data : List Byte) (b0 : Byte) : InputStep :=
  if b0 = 3 then ⟨[.QuitMsg], false⟩
  else if b0 = 27 ∧ data.length < 3 then ⟨[], true⟩
  else if data.length = 1 then ⟨[.KeyMsg (b0.val : Int)], true⟩
  else ⟨[], true⟩

/-- The body of the loop of `ReadInput` on a chunk `data = buf[:n]`, `n > 0`. -/
def decodeChunk (data : List Byte) : InputStep :=
  let csi : Option Msg :=
    match data with
    | b0 :: b1 :: b2 :: _ => if b0 = 27 ∧ b1 = 91 then arrowKey b2 else none
    | _ => none
  match csi with
  | some m => ⟨[m], true⟩
  | none =>
    match data with
    | b0 :: _ => decodeFirst data b0
    | [] => ⟨[], true⟩

/-- One iteration of the loop of `ReadInput`, the read included. -/
def readStep (rd : ReadResult) : InputStep :=
  if rd.err ∨ rd.data.length = 0 then ⟨[], true⟩ else decodeChunk rd.data

/-- Go `ReadInput` on the results of its successive reads: the messages sent to
the channel, in order, and whether the function has returned. -/
def ReadInput : List ReadResult → List Msg × Bool
  | [] => ([], false)
  | rd :: rest =>
    let st := readStep rd
    if st.continues then
      let r := ReadInput rest
      (st.sent ++ r.1, r.2)
    else (st.sent, true)

/-! ## program.go -/

/-- Go `type Model interface { Init; Update; View }` over the states `σ` of an
application, with the optional `PixelView` of a `PixelModel`: `PixelView m` is
`none` when the model value `m` does not implement `PixelModel`. -/
structure ModelOps (σ : Type) where
  Init : σ → Msg
  Update : σ → Msg → σ × Option Cmd
  View : σ → String
  PixelView : σ → Option PixelBuffer

/-- Go `type Program struct`; `pixelRenderer` tells whether `renderer` is a
`*PixelRenderer`. -/
structure Program (σ : Type) where
  Model : σ
  pixelRenderer : Bool
  useAltScreen : Bool
  usePixelRenderer : Bool
  quit : Bool

/-- Go `type ProgramOption func(*Program)`, the three options of the package. -/
inductive ProgramOption where
  | WithAltScreen
  | WithPixelRenderer
  | WithBase
deriving DecidableEq, Repr

/-- The effect of one option on the program. -/
def ProgramOption.apply {σ : Type} (p : Program σ) : ProgramOption → Program σ
  | .WithAltScreen => { p with useAltScreen := true }
  | .WithPixelRenderer => { p with usePixelRenderer := true, pixelRenderer := true }
  | .WithBase => { p with useAltScreen := true, usePixelRenderer := true, pixelRenderer := true }

/-- Go `NewProgram`. -/
def NewProgram {σ : Type} (model : σ) (opts : List ProgramOption) : Program σ :=
  opts.foldl ProgramOption.apply
    { Model := model, pixelRenderer := false, useAltScreen := false,
      usePixelRenderer := false, quit := false }

/-- The calls `Run` makes that the outside can observe. -/
inductive Call where
  | View
  | Write (s : String)
  | PixelView
  | RenderPixels (buffer : PixelBuffer)
  | Receive (msg : Msg)
  | Update (msg : Msg)
  | Go (cmd : Cmd)
deriving DecidableEq, Repr

/-- How the main loop of `Run` ends on a finite sequence of messages: it
returns an error value (`none` is the nil error), or it is blocked on the
channel once the messages are used up. -/
inductive Outcome where
  | returned (err : Option String)
  | blocked
deriving DecidableEq, Repr

/-- The render step at the head of the main loop of `Run`. -/
def renderCalls {σ : Type} (ops : ModelOps σ) (p : Program σ) : List Call :=
  if p.usePixelRenderer then
    match ops.PixelView p.Model with
    | some buffer =>
      if p.pixelRenderer then [.PixelView, .RenderPixels buffer] else [.PixelView]
    | none => []
  else [.View, .Write (ops.View p.Model)]

/-- The `go func() { p.msgs <- cmd() }()` after an `Update`. -/
def goCalls : Option Cmd → List Call
  | some cmd => [.Go cmd]
  | none => []

/-- The main loop of Go `Run`, `for !p.quit { ... }`, on the messages the
channel delivers, in arrival order: the calls made, the program at the end,
and how the loop ended. -/
def mainLoop {σ : Type} (ops : ModelOps σ) :
    Program σ → List Msg → List Call × Program σ × Outcome
  | p, [] =>
    if p.quit then ([], p, .returned none)
    else (renderCalls ops p, p, .blocked)
  | p, msg :: rest =>
    if p.quit then ([], p, .returned none)
    else if msg = .QuitMsg then
      (renderCalls ops p ++ [.Receive msg], { p with quit := true }, .returned none)
    else
      let next := ops.Update p.Model msg
      let r := mainLoop ops { p with Model := next.1 } rest
      (renderCalls ops p ++ [.Receive msg, .Update msg] ++ goCalls next.2 ++ r.1, r.2)

/-- The messages `Update` was called with, in call order. -/
def updatesOf : List Call → List Msg
  | [] => []
  | .Update msg :: cs => msg :: updatesOf cs
  | _ :: cs => updatesOf cs

/-- Whether a call is a `View`, `PixelView`, `Write` or `RenderPixels`. -/
def Call.isRender : Call → Bool
  | .View => true
  | .Write _ => true
  | .PixelView => true
  | .RenderPixels _ => true
  | _ => false

/-! ## pbuffer.go: serialization -/

/-- Go conversion `uint8(c)` of an `int`: the value modulo 256. -/
def uint8 (c : Int) : Nat := (c % 256).toNat

/-- The character `WriteRune(r)` appends: `r` itself, or U+FFFD when `r` is not
a Unicode scalar value. -/
def runeChar (r : Int) : Char :=
  if (0 ≤ r ∧ r < 0xD800) ∨ (0xDFFF < r ∧ r < 0x110000) then Char.ofNat r.toNat
  else Char.ofNat 0xFFFD

/-- Go `fmt.Sprintf("\x1b[38;5;%dm\x1b[48;5;%dm", fg, bg)` on two `uint8`. -/
def colorSequence (fg bg : Nat) : String :=
  "\x1b[38;5;" ++ toString fg ++ "m\x1b[48;5;" ++ toString bg ++ "m"

/-- The three writes of the inner loop of `RenderToTerminal` for one pixel. -/
def renderPixel (output : String) (pixel : Pixel) : String :=
  ((output ++ colorSequence (uint8 pixel.FG) (uint8 pixel.BG))
    ++ String.singleton (runeChar pixel.Char)) ++ "\x1b[0m"

/-- Go `(*PixelBuffer).RenderToTerminal`. -/
def RenderToTerminal (pb : PixelBuffer) : Except GoPanic String :=
  (intRange 0 pb.Height).foldlM
    (fun output y => do
      let output ← (intRange 0 pb.Width).foldlM
        (fun output x => do
          let pixel ← getCell pb y x
          pure (renderPixel output pixel))
        output
      pure (output ++ "\n"))
    ""

/-- The text of one cell in the words of the specification: the colour-set
sequence with the colours in decimal, the cell's character, the reset
sequence. -/
def cellText (p : Pixel) : String :=
  "\x1b[38;5;" ++ toString (uint8 p.FG) ++ "m" ++ "\x1b[48;5;" ++ toString (uint8 p.BG) ++ "m"
    ++ String.singleton (runeChar p.Char) ++ "\x1b[0m"

/-- The text of one row in the words of the specification: its cells from left
to right, then one newline. -/
def rowText (row : List Pixel) : String :=
  String.join (row.map cellText) ++ "\n"

/-- The text of a buffer in the words of the specification: its rows from top
to bottom. -/
def frameText (pb : PixelBuffer) : String :=
  String.join (pb.Data.map rowText)

/-- The reset sequence `ESC [ 0 m`. -/
def resetSequence : List Char := "\x1b[0m".data

/-- The number of positions of `s` at which `pat` occurs. -/
def occurrences (pat : List Char) : List Char → Nat
  | [] => 0
  | c :: cs => (if pat.isPrefixOf (c :: cs) then 1 else 0) + occurrences pat cs

/-! ## lang.go -/

/-- Go `type Catalog map[string]string`, as the lookup `c[key]`: `none` for a
key that is not in the map. -/
abbrev Catalog := String → Option String

/-- The character class `[A-Za-z0-9_.-]` of the pattern `ph`. -/
def phChar (c : Char) : Bool :=
  c.isAlpha || c.isDigit || c == '_' || c == '.' || c == '-'

/-- The match of `ph`, the pattern `\{[A-Za-z0-9_.-]+\}`, at the head of `s`:
an opening brace, the longest run of class characters, which must not be
empty, and a closing brace.  The class holds neither brace, so no shorter run
can be followed by the closing brace. -/
def phMatch : List Char → Option (List Char)
  | [] => none
  | c :: cs =>
    if c = Char.ofNat 123 then
      match cs.dropWhile phChar with
      | d :: _ =>
        if d = Char.ofNat 125 ∧ cs.takeWhile phChar ≠ [] then
          some (c :: (cs.takeWhile phChar ++ [d]))
        else none
      | [] => none
    else none

/-- Go `ph.ReplaceAllStringFunc(src, repl)` for a `repl` that closes over a
state `σ`: the matches are found leftmost first and do not overlap, `repl` is
called on each in turn, and the text between matches is copied.  `skip` counts
the characters of the current match still to pass over. -/
def ReplaceAllStringFunc {σ : Type} (repl : σ → List Char → List Char × σ) :
    Nat → σ → List Char → List Char
  | _, _, [] => []
  | skip + 1, st, _ :: cs => ReplaceAllStringFunc repl skip st cs
  | 0, st, c :: cs =>
    match phMatch (c :: cs) with
    | some m => (repl st m).1 ++ ReplaceAllStringFunc repl (m.length - 1) (repl st m).2 cs
    | none => c :: ReplaceAllStringFunc repl 0 st cs

/-- The closure `Text` passes to `ReplaceAllStringFunc`; `idx` is its captured
counter and `sprint` is `fmt.Sprint`. -/
def replaceArg {α : Type} (sprint : α → String) (args : List α) (idx : Nat)
    (m : List Char) : List Char × Nat :=
  if idx < args.length then
    match args.get? idx with
    | some v => ((sprint v).data, idx + 1)
    | none => (m, idx)
  else (m, idx)

/-- Go `(Catalog).Text`. -/
def Catalog.Text {α : Type} (sprint : α → String) (c : Catalog) (key : String)
    (args : List α) : String :=
  match c key with
  | none => "⟦" ++ key ++ "⟧"
  | some s =>
    if args.length = 0 then s
    else String.mk (ReplaceAllStringFunc (replaceArg sprint args) 0 0 s.data)

/-- A piece of a catalog text: one character outside the placeholders, or one
placeholder match. -/
inductive Token where
  | text (c : Char)
  | placeholder (m : List Char)
deriving DecidableEq, Repr

/-- The characters a token stands for. -/
def Token.source : Token → List Char
  | .text c => [c]
  | .placeholder m => m

/-- The text cut into its placeholder matches, left to right, and the
characters between them. -/
def tokens : Nat → List Char → List Token
  | _, [] => []
  | skip + 1, _ :: cs => tokens skip cs
  | 0, c :: cs =>
    match phMatch (c :: cs) with
    | some m => .placeholder m :: tokens (m.length - 1) cs
    | none => .text c :: tokens 0 cs

/-- The text of the specification for a found key: the `i`-th placeholder is
replaced by the textual form of `args[i]` when there is one and stays as it is
otherwise; the characters outside placeholders stay. -/
def substitute {α : Type} (sprint : α → String) (args : List α) : Nat → List Token → List Char
  | _, [] => []
  | i, .text c :: ts => c :: substitute sprint args i ts
  | i, .placeholder m :: ts =>
    (match args.get? i with
      | some v => (sprint v).data
      | none => m) ++ substitute sprint args (i + 1) ts

/-- A placeholder: a brace-enclosed, non-empty run of letters, digits, `_`, `.`
and `-`. -/
def IsPlaceholder (m : List Char) : Prop :=
  ∃ run, run ≠ [] ∧ (∀ ch ∈ run, phChar ch = true) ∧
    m = Char.ofNat 123 :: (run ++ [Char.ofNat 125])

/-! ## Sample values -/

/-- A 2x2 buffer as `NewPixelBuffer(2, 2)` builds it. -/
def blank2x2 : PixelBuffer :=
  { Width := 2, Height := 2, Data := [[Pixel.zero, Pixel.zero], [Pixel.zero, Pixel.zero]] }

/-- A red `A` on green. -/
def pixelA : Pixel := ⟨65, ColorRed, ColorGreen⟩

/-- A blue `B` on white. -/
def pixelB : Pixel := ⟨66, ColorBlue, ColorWhite⟩

/-- The `ansi` package on plain text: its escape sequences, with the display
width of a string taken as its number of characters and truncation as a cut
after that many characters, which is what the package gives for text of
one-cell characters without escape sequences. -/
def vt100 : Ansi :=
  { CursorHomePosition := "\x1b[H"
    EraseLineRight := "\x1b[K"
    EraseScreenBelow := "\x1b[J"
    EraseEntireScreen := "\x1b[2J"
    EraseEntireLine := "\x1b[2K"
    ShowCursor := "\x1b[?25h"
    HideCursor := "\x1b[?25l"
    SetAltScreenSaveCursorMode := "\x1b[?1049h"
    ResetAltScreenSaveCursorMode := "\x1b[?1049l"
    CursorUp := fun n => "\x1b[" ++ (if n > 1 then toString n else "") ++ "A"
    CursorPosition := fun col row =>
      if row ≤ 0 ∧ col ≤ 0 then "\x1b[H"
      else "\x1b[" ++ (if row > 0 then toString row else "") ++ ";"
        ++ (if col > 0 then toString col else "") ++ "H"
    SetWindowTitle := fun title => "\x1b]2;" ++ title ++ "\x07"
    StringWidth := fun s => (s.length : Int)
    Truncate := fun s n tail => if (s.length : Int) ≤ n then s else String.mk (s.data.take n.toNat) ++ tail }

/-- A 2x1 layer holding `pixelB` twice, wider than `layerA`. -/
def layerWide (alpha : Float32) : Layer :=
  { Buffer := { Width := 2, Height := 1, Data := [[pixelB, pixelB]] }, ZIndex := 2,
    Alpha := alpha }

/-- A 2x1 buffer whose two cells are the same pixel. -/
def twinCells : PixelBuffer :=
  { Width := 2, Height := 1, Data := [[pixelA, pixelA]] }

/-- A catalog with the one key `hud`, whose text has three placeholders. -/
def hudCatalog : Catalog :=
  fun key => if key = "hud" then some "\x7bplayer\x7d: \x7bhp\x7d/\x7bmax\x7d" else none

/-- A model that counts the messages it is given and answers the key `q` with
a command yielding `QuitMsg`. -/
def counterOps : ModelOps Nat :=
  { Init := fun _ => .nil
    Update := fun n msg => if msg = .KeyMsg 113 then (n, some ⟨.QuitMsg⟩) else (n + 1, none)
    View := fun n => if n = 0 then "none" else "some"
    PixelView := fun _ => none }

/-- A 1x1 layer holding `pixelA`, as the bottom of a stack. -/
def layerA (alpha : Float32) : Layer :=
  { Buffer := { Width := 1, Height := 1, Data := [[pixelA]] }, ZIndex := 0, Alpha := alpha }

/-- A 1x1 layer holding `pixelB`, as the top of a stack. -/
def layerB (alpha : Float32) : Layer :=
  { Buffer := { Width := 1, Height := 1, Data := [[pixelB]] }, ZIndex := 1, Alpha := alpha }

/-! # Theorems -/


/-! ## Machine arithmetic -/

/-- A result within the range of `int` does not wrap. -/
theorem wrap64_of_isInt64 (z : Int) (h : IsInt64 z) : wrap64 z = z := by
  unfold IsInt64 at h
  unfold wrap64
  have h1 : (0 : Int) ≤ z + 2 ^ 63 := by omega
  have h2 : z + 2 ^ 63 < 2 ^ 64 := by omega
  rw [Int.emod_eq_of_lt h1 h2]
  omega

/-- A magnitude up to `2 ^ 53` is a `float64`. -/
theorem roundFloat64_exact (a : Nat) (h : a ≤ 2 ^ 53) : roundFloat64 a = a := by
  rcases Nat.lt_or_eq_of_le h with hlt | heq
  · have hu : float64Ulp 11 a = 1 := by
      rw [float64Ulp, if_pos hlt]
    unfold roundFloat64
    simp only [hu, Nat.div_one, Nat.mod_one, Nat.mul_one]
    rw [if_pos (by decide)]
  · subst heq
    decide

/-- The conversion through `float64` is the absolute value up to `2 ^ 53`. -/
theorem absViaFloat64_exact (v : Int) (h : |v| ≤ 2 ^ 53) : absViaFloat64 v = |v| := by
  have hnat : v.natAbs ≤ 2 ^ 53 := by
    have : ((v.natAbs : Nat) : Int) ≤ 2 ^ 53 := by rw [Int.natCast_natAbs]; exact h
    exact_mod_cast this
  unfold absViaFloat64
  rw [roundFloat64_exact _ hnat, Int.natCast_natAbs]
  rw [if_pos (lt_of_le_of_lt h (by norm_num))]

theorem add64_of_isInt64 (a b : Int) (h : IsInt64 (a + b)) : add64 a b = a + b :=
  wrap64_of_isInt64 _ h

theorem sub64_of_isInt64 (a b : Int) (h : IsInt64 (a - b)) : sub64 a b = a - b :=
  wrap64_of_isInt64 _ h

theorem mul64_of_isInt64 (a b : Int) (h : IsInt64 (a * b)) : mul64 a b = a * b :=
  wrap64_of_isInt64 _ h

theorem float64Ulp_even (k a : Nat) (h : 2 ^ 53 ≤ a) : 2 ∣ float64Ulp (k + 1) a := by
  rw [float64Ulp, if_neg (by omega)]
  exact Dvd.intro _ rfl

/-- The conversion through `float64` never yields the largest `int`, which is
odd and above `2 ^ 53`: the bound `dx` of the loops of `DrawLine` can be
reached by the counter `i`. -/
theorem absViaFloat64_ne_max (v : Int) : absViaFloat64 v ≠ 2 ^ 63 - 1 := by
  unfold absViaFloat64
  split
  · intro heq
    by_cases hlt : v.natAbs < 2 ^ 53
    · rw [roundFloat64_exact _ hlt.le] at heq
      omega
    · have hev : 2 ∣ float64Ulp 11 v.natAbs := float64Ulp_even 10 _ (by omega)
      have hround : 2 ∣ roundFloat64 v.natAbs := by
        unfold roundFloat64
        simp only
        split
        · exact Dvd.dvd.mul_left hev _
        · split
          · exact Dvd.dvd.mul_left hev _
          · split
            · exact Dvd.dvd.mul_left hev _
            · exact Dvd.dvd.mul_left hev _
      obtain ⟨c, hc⟩ := hround
      rw [hc] at heq
      push_cast at heq
      omega
  · norm_num

/-! ## Slices and cells -/

theorem index_eq_ok {α : Type} (xs : List α) (i : Int) (h0 : 0 ≤ i) (h1 : i.toNat < xs.length) :
    index xs i = .ok (xs[i.toNat]) := by
  unfold index
  rw [if_neg (by omega)]
  simp [List.getElem?_eq_getElem h1]

theorem setIndex_eq_ok {α : Type} (xs : List α) (i : Int) (a : α) (h0 : 0 ≤ i)
    (h1 : i.toNat < xs.length) : setIndex xs i a = .ok (xs.set i.toNat a) := by
  unfold setIndex
  rw [if_neg (by omega), if_pos h1]

/-- The content of a cell in terms of list lookups. -/
theorem cell_eq (pb : PixelBuffer) (x y : Int) :
    cell pb x y =
      if 0 ≤ x ∧ 0 ≤ y then (pb.Data[y.toNat]?).bind (fun row => row[x.toNat]?) else none := by
  unfold cell getCell index
  by_cases hy : y < 0
  · rw [if_pos hy, if_neg (by omega)]; rfl
  · rw [if_neg hy]
    rcases hrow : pb.Data[y.toNat]? with _ | row
    · simp [bind, Except.bind]
    · by_cases hx : x < 0
      · rw [if_neg (by omega)]; simp [hx, bind, Except.bind]
      · rw [if_pos (by omega)]
        rcases hc : row[x.toNat]? with _ | c
        · simp [hx, hc, bind, Except.bind]
        · simp [hx, hc, bind, Except.bind]

theorem setCell_ok (pb : PixelBuffer) (hwf : WellFormed pb) (x y : Int) (p : Pixel)
    (hx0 : 0 ≤ x) (hx1 : x < pb.Width) (hy0 : 0 ≤ y) (hy1 : y < pb.Height) :
    ∃ pb', setCell pb y x p = .ok pb' ∧ pb'.Width = pb.Width ∧ pb'.Height = pb.Height ∧
      WellFormed pb' ∧
      ∀ x' y', cell pb' x' y' = if x' = x ∧ y' = y then some p else cell pb x' y' := by
  obtain ⟨hlen, hrows⟩ := hwf
  have hy : y.toNat < pb.Data.length := by omega
  have hrow : ((pb.Data[y.toNat]).length : Int) = pb.Width :=
    hrows _ (List.getElem_mem _)
  have hx : x.toNat < (pb.Data[y.toNat]).length := by omega
  refine ⟨{ pb with Data := pb.Data.set y.toNat ((pb.Data[y.toNat]).set x.toNat p) }, ?_, rfl, rfl, ?_, ?_⟩
  · unfold setCell
    rw [index_eq_ok _ _ hy0 hy]
    simp only [bind, Except.bind]
    rw [setIndex_eq_ok _ _ _ hx0 hx]
    simp only [bind, Except.bind]
    rw [setIndex_eq_ok _ _ _ hy0 hy]
    rfl
  · refine ⟨by simpa using hlen, ?_⟩
    intro row hmem
    rcases List.mem_or_eq_of_mem_set hmem with h | h
    · exact hrows row h
    · subst h; simpa using hrow
  · intro x' y'
    rw [cell_eq, cell_eq]
    by_cases hb : 0 ≤ x' ∧ 0 ≤ y'
    · rw [if_pos hb, if_pos hb]
      simp only [List.getElem?_set]
      by_cases hyy : y' = y
      · subst hyy
        simp only [hy, if_true, and_true, List.getElem?_eq_getElem hy, Option.some_bind, List.getElem?_set]
        by_cases hxx : x' = x
        · subst hxx; simp [hx]
        · have : x.toNat ≠ x'.toNat := by omega
          simp [this, hxx]
      · have : y.toNat ≠ y'.toNat := by omega
        simp [this, hyy]
    · rw [if_neg hb, if_neg hb]
      have : ¬ (x' = x ∧ y' = y) := by
        rintro ⟨rfl, rfl⟩; exact hb ⟨hx0, hy0⟩
      simp [this]

/-! ## SetPixel -/

/-- C1: on a well-formed buffer, `SetPixel(x, y, p)` with `(x, y)` outside the
bounds returns normally and leaves the buffer as it was; with `(x, y)` inside
the bounds it returns normally, cell `(x, y)` becomes `p`, and every other cell,
the dimensions and the shape of the buffer are unchanged. -/
theorem SetPixel_clips_or_sets (pb : PixelBuffer) (hwf : WellFormed pb) (x y : Int)
    (p : Pixel) :
    ((x < 0 ∨ x ≥ pb.Width ∨ y < 0 ∨ y ≥ pb.Height) → SetPixel pb x y p = .ok pb) ∧
    ((0 ≤ x ∧ x < pb.Width ∧ 0 ≤ y ∧ y < pb.Height) →
      ∃ pb', SetPixel pb x y p = .ok pb' ∧ pb'.Width = pb.Width ∧ pb'.Height = pb.Height ∧
        WellFormed pb' ∧ cell pb' x y = some p ∧
        ∀ x' y', ¬ (x' = x ∧ y' = y) → cell pb' x' y' = cell pb x' y') := by
  constructor
  · intro hout
    unfold SetPixel
    rw [if_neg (by omega)]
    rfl
  · rintro ⟨hx0, hx1, hy0, hy1⟩
    obtain ⟨pb', hset, hw, hh, hwf', hcells⟩ := setCell_ok pb hwf x y p hx0 hx1 hy0 hy1
    refine ⟨pb', ?_, hw, hh, hwf', ?_, ?_⟩
    · unfold SetPixel
      rw [if_pos ⟨hx0, hx1, hy0, hy1⟩]
      exact hset
    · rw [hcells]; simp
    · intro x' y' hne
      rw [hcells, if_neg hne]

/-- C1 at the 2x2 blank buffer: a write at `(2, 0)` and one at `(0, -1)` change
nothing, a write at `(1, 0)` sets that cell. -/
theorem SetPixel_clips_or_sets_witness :
    WellFormed blank2x2 ∧
    SetPixel blank2x2 2 0 pixelA = .ok blank2x2 ∧
    SetPixel blank2x2 0 (-1) pixelA = .ok blank2x2 ∧
    ∃ pb', SetPixel blank2x2 1 0 pixelA = .ok pb' ∧ pb'.Width = blank2x2.Width ∧
      pb'.Height = blank2x2.Height ∧ WellFormed pb' ∧ cell pb' 1 0 = some pixelA ∧
      ∀ x' y', ¬ (x' = 1 ∧ y' = 0) → cell pb' x' y' = cell blank2x2 x' y' :=
  ⟨by decide,
   (SetPixel_clips_or_sets blank2x2 (by decide) 2 0 pixelA).1 (by decide),
   (SetPixel_clips_or_sets blank2x2 (by decide) 0 (-1) pixelA).1 (by decide),
   (SetPixel_clips_or_sets blank2x2 (by decide) 1 0 pixelA).2 (by decide)⟩

/-! ## Loops -/

theorem mem_intRange (lo hi i : Int) : i ∈ intRange lo hi ↔ lo ≤ i ∧ i < hi := by
  unfold intRange
  simp only [List.mem_map, List.mem_range]
  constructor
  · rintro ⟨k, hk, rfl⟩
    omega
  · rintro ⟨h1, h2⟩
    exact ⟨(i - lo).toNat, by omega, by omega⟩

/-- A loop whose every iteration succeeds and carries an invariant of the
iterations done so far succeeds and ends in the invariant of all of them. -/
theorem foldlM_invariant {σ ι ε : Type} (f : σ → ι → Except ε σ)
    (Inv : List ι → σ → Prop) (l : List ι)
    (hstep : ∀ pre i s, i ∈ l → Inv pre s → ∃ s', f s i = .ok s' ∧ Inv (pre ++ [i]) s')
    (pre : List ι) (s : σ) (h0 : Inv pre s) :
    ∃ s', l.foldlM f s = .ok s' ∧ Inv (pre ++ l) s' := by
  induction l generalizing pre s with
  | nil => exact ⟨s, rfl, by simpa using h0⟩
  | cons i l ih =>
    obtain ⟨s1, hf, h1⟩ := hstep pre i s (List.mem_cons_self _ _) h0
    obtain ⟨s2, hfold, h2⟩ := ih (fun pre j s hj => hstep pre j s (List.mem_cons_of_mem _ hj))
      (pre ++ [i]) s1 h1
    refine ⟨s2, ?_, by simpa using h2⟩
    rw [List.foldlM_cons, hf]
    exact hfold

/-- A loop over `l` whose iteration `i` rewrites the cells of its region
`reg i` with `upd` and keeps the rest rewrites the union of the regions. -/
theorem region_loop {ι : Type} (W H : Int) (l : List ι)
    (body : PixelBuffer → ι → Except GoPanic PixelBuffer)
    (reg : ι → Int → Int → Prop) (upd : Int → Int → Option Pixel)
    (hbody : ∀ s i, i ∈ l → s.Width = W → s.Height = H → WellFormed s →
      ∃ s', body s i = .ok s' ∧ s'.Width = W ∧ s'.Height = H ∧ WellFormed s' ∧
        ∀ x y, (reg i x y → cell s' x y = upd x y) ∧ (¬ reg i x y → cell s' x y = cell s x y))
    (s0 : PixelBuffer) (hW : s0.Width = W) (hH : s0.Height = H) (hwf : WellFormed s0) :
    ∃ s', l.foldlM body s0 = .ok s' ∧ s'.Width = W ∧ s'.Height = H ∧ WellFormed s' ∧
      ∀ x y, ((∃ i ∈ l, reg i x y) → cell s' x y = upd x y) ∧
        ((∀ i ∈ l, ¬ reg i x y) → cell s' x y = cell s0 x y) := by
  have key := foldlM_invariant body
    (fun pre s => s.Width = W ∧ s.Height = H ∧ WellFormed s ∧
      ∀ x y, ((∃ i ∈ pre, reg i x y) → cell s x y = upd x y) ∧
        ((∀ i ∈ pre, ¬ reg i x y) → cell s x y = cell s0 x y))
    l ?_ [] s0 ⟨hW, hH, hwf, fun x y => ⟨by simp, fun _ => rfl⟩⟩
  · simpa using key
  · rintro pre i s hi ⟨hsW, hsH, hswf, hcells⟩
    obtain ⟨s', hok, hW', hH', hwf', hc'⟩ := hbody s i hi hsW hsH hswf
    refine ⟨s', hok, hW', hH', hwf', fun x y => ⟨?_, ?_⟩⟩
    · rintro ⟨j, hj, hreg⟩
      by_cases hri : reg i x y
      · exact (hc' x y).1 hri
      · rw [(hc' x y).2 hri]
        rcases List.mem_append.1 hj with hj | hj
        · exact (hcells x y).1 ⟨j, hj, hreg⟩
        · simp only [List.mem_singleton] at hj
          subst hj
          exact absurd hreg hri
    · intro hnone
      have hri : ¬ reg i x y := hnone i (by simp)
      rw [(hc' x y).2 hri]
      exact (hcells x y).2 (fun j hj => hnone j (by simp [hj]))

/-! ## FillRect -/

/-- One row of `FillRect`: the inner loop over the columns `xs` of row `i`. -/
theorem fill_row (W H : Int) (i : Int) (hi0 : 0 ≤ i) (hi1 : i < H) (xs : List Int)
    (hxs : ∀ j ∈ xs, 0 ≤ j ∧ j < W) (p : Pixel)
    (s : PixelBuffer) (hW : s.Width = W) (hH : s.Height = H) (hwf : WellFormed s) :
    ∃ s', xs.foldlM (fun s j => setCell s i j p) s = .ok s' ∧ s'.Width = W ∧ s'.Height = H ∧
      WellFormed s' ∧
      ∀ col row, ((row = i ∧ col ∈ xs) → cell s' col row = some p) ∧
        (¬ (row = i ∧ col ∈ xs) → cell s' col row = cell s col row) := by
  have key := region_loop W H xs (fun s j => setCell s i j p)
    (fun j col row => col = j ∧ row = i) (fun _ _ => some p) ?_ s hW hH hwf
  · obtain ⟨s', hok, hW', hH', hwf', hc⟩ := key
    refine ⟨s', hok, hW', hH', hwf', fun col row => ⟨?_, ?_⟩⟩
    · rintro ⟨hr, hcm⟩
      exact (hc col row).1 ⟨col, hcm, rfl, hr⟩
    · intro hn
      refine (hc col row).2 ?_
      rintro j hj ⟨rfl, hr⟩
      exact hn ⟨hr, hj⟩
  · intro t j hj htW htH htwf
    obtain ⟨hj0, hj1⟩ := hxs j hj
    obtain ⟨t', hok, hW', hH', hwf', hc⟩ :=
      setCell_ok t htwf j i p hj0 (by omega) hi0 (by omega)
    refine ⟨t', hok, by omega, by omega, hwf', fun col row => ⟨?_, ?_⟩⟩
    · intro hr; rw [hc, if_pos hr]
    · intro hr; rw [hc, if_neg hr]

/-- With a non-negative origin and corners `x + w`, `y + h` within the range of
`int`, `FillRect` returns normally and fills exactly the part of the rectangle
that lies inside the buffer. -/
theorem FillRect_nonneg_origin (pb : PixelBuffer) (hwf : WellFormed pb) (x y w h : Int)
    (p : Pixel) (hx : 0 ≤ x) (hy : 0 ≤ y) (hxw : IsInt64 (x + w)) (hyh : IsInt64 (y + h)) :
    ∃ pb', FillRect pb x y w h p = .ok pb' ∧ pb'.Width = pb.Width ∧
      pb'.Height = pb.Height ∧ WellFormed pb' ∧
      ∀ col row,
        ((x ≤ col ∧ col < x + w ∧ col < pb.Width ∧ y ≤ row ∧ row < y + h ∧ row < pb.Height) →
          cell pb' col row = some p) ∧
        (¬ (x ≤ col ∧ col < x + w ∧ col < pb.Width ∧ y ≤ row ∧ row < y + h ∧ row < pb.Height) →
          cell pb' col row = cell pb col row) := by
  have key := region_loop pb.Width pb.Height
    (intRange y (min (y + h) pb.Height))
    (fun s i => (intRange x (min (x + w) s.Width)).foldlM (fun s j => setCell s i j p) s)
    (fun i col row => row = i ∧ col ∈ intRange x (min (x + w) pb.Width))
    (fun _ _ => some p) ?_ pb rfl rfl hwf
  · obtain ⟨s', hok, hW', hH', hwf', hc⟩ := key
    have hfill : FillRect pb x y w h p = .ok s' := by
      unfold FillRect add64
      rw [wrap64_of_isInt64 _ hxw, wrap64_of_isInt64 _ hyh]
      exact hok
    refine ⟨s', hfill, hW', hH', hwf', fun col row => ⟨?_, ?_⟩⟩
    · rintro ⟨h1, h2, h3, h4, h5, h6⟩
      refine (hc col row).1 ⟨row, ?_, rfl, ?_⟩
      · rw [mem_intRange]; omega
      · rw [mem_intRange]; omega
    · intro hn
      refine (hc col row).2 ?_
      rintro i hi ⟨rfl, hcm⟩
      rw [mem_intRange] at hi hcm
      apply hn
      omega
  · intro s i hi hsW hsH hswf
    rw [mem_intRange] at hi
    simp only [hsW]
    exact fill_row pb.Width pb.Height i (by omega) (by omega) _
      (fun j hj => by rw [mem_intRange] at hj; omega) p s hsW hsH hswf

/-- C2: on the blank 2x2 buffer `FillRect(-1, 0, 2, 1, p)`, whose rectangle
covers cell `(0, 0)`, stops with an index-out-of-range panic at `Data[0][-1]`
instead of filling that cell. -/
theorem FillRect_negative_origin_panics :
    WellFormed blank2x2 ∧
    FillRect blank2x2 (-1) 0 2 1 pixelA = .error .indexOutOfRange ∧
    FillRect blank2x2 0 (-1) 1 2 pixelA = .error .indexOutOfRange := by
  decide

/-! ## The exact Bresenham path -/

theorem lineLoopY_eq_swap (dx dy sx sy : Int) (n : Nat) (x y d : Int) :
    lineLoopY dx dy sx sy n x y d = (lineLoopX dy dx sy sx n y x d).map Prod.swap := by
  induction n generalizing x y d with
  | zero => rfl
  | succ n ih =>
    unfold lineLoopY lineLoopX
    by_cases hd : d > 0
    · simp only [hd, if_true, List.map_cons, Prod.swap_prod_mk, ih]
    · simp only [hd, if_false, List.map_cons, Prod.swap_prod_mk, ih]

theorem length_lineLoopX (dx dy sx sy : Int) (n : Nat) (x y d : Int) :
    (lineLoopX dx dy sx sy n x y d).length = n := by
  induction n generalizing x y d with
  | zero => rfl
  | succ n ih =>
    unfold lineLoopX
    by_cases hd : d > 0
    · simp [hd, ih]
    · simp [hd, ih]

theorem head?_lineLoopX (dx dy sx sy : Int) (n : Nat) (x y d : Int) :
    (lineLoopX dx dy sx sy (n + 1) x y d).head? = some (x, y) := by
  unfold lineLoopX
  rfl

/-- Each step of the loop moves the pen by `sx` or 0 in one coordinate and by
`sy` or 0 in the other. -/
theorem chain_lineLoopX (dx dy sx sy : Int) (hsx : |sx| ≤ 1) (hsy : |sy| ≤ 1) (n : Nat)
    (x y d : Int) :
    List.Chain' (fun a b : Int × Int => |a.1 - b.1| ≤ 1 ∧ |a.2 - b.2| ≤ 1)
      (lineLoopX dx dy sx sy n x y d) := by
  induction n generalizing x y d with
  | zero => exact List.chain'_nil
  | succ n ih =>
    unfold lineLoopX
    rw [List.chain'_cons']
    have hx : |x - (x + sx)| ≤ 1 := by
      have : x - (x + sx) = -sx := by ring
      rw [this, abs_neg]; exact hsx
    have hy : |y - (y + sy)| ≤ 1 := by
      have : y - (y + sy) = -sy := by ring
      rw [this, abs_neg]; exact hsy
    by_cases hd : d > 0
    · simp only [hd, if_true]
      refine ⟨?_, ih _ _ _⟩
      intro b hb
      cases n with
      | zero => simp [lineLoopX] at hb
      | succ n =>
        rw [head?_lineLoopX] at hb
        simp only [Option.mem_def, Option.some.injEq] at hb
        subst hb
        exact ⟨hx, hy⟩
    · simp only [hd, if_false]
      refine ⟨?_, ih _ _ _⟩
      intro b hb
      cases n with
      | zero => simp [lineLoopX] at hb
      | succ n =>
        rw [head?_lineLoopX] at hb
        simp only [Option.mem_def, Option.some.injEq] at hb
        subst hb
        exact ⟨hx, by simp⟩

/-- The error term of the loop keeps the pen within half a cell of the ideal
line, so that after the `r` steps left the minor coordinate has advanced by
exactly the `m` steps it still had to go. -/
theorem getLast?_lineLoopX (dx dy sx sy : Int) (hdx : 0 < dx) (hdy : 0 ≤ dy) (hle : dy ≤ dx)
    (r : Nat) :
    ∀ (x y d m : Int), d = 2 * (m * dx - r * dy) + 2 * dy - dx →
      -dx < 2 * (m * dx - r * dy) → 2 * (m * dx - r * dy) ≤ dx →
      (lineLoopX dx dy sx sy (r + 1) x y d).getLast? = some (x + r * sx, y + m * sy) := by
  induction r with
  | zero =>
    intro x y d m _ h1 h2
    have hm : m = 0 := by
      simp only [Nat.cast_zero, zero_mul, sub_zero] at h1 h2
      by_contra hne
      rcases lt_or_gt_of_ne hne with h | h
      · have : m * dx ≤ -1 * dx := by
          apply mul_le_mul_of_nonneg_right _ hdx.le
          omega
        omega
      · have : 1 * dx ≤ m * dx := by
          apply mul_le_mul_of_nonneg_right _ hdx.le
          omega
        omega
    subst hm
    unfold lineLoopX
    by_cases hd : d > 0 <;> simp [hd, lineLoopX]
  | succ r ih =>
    intro x y d m hd h1 h2
    rw [lineLoopX]
    rw [List.getLast?_cons]
    push_cast at hd h1 h2
    by_cases hpos : d > 0
    · rw [if_pos hpos]
      rw [ih (x + sx) (y + sy) (d - 2 * dx + 2 * dy) (m - 1)
        (by rw [hd]; ring_nf) (by linarith) (by linarith)]
      simp only [Option.getD_some, Option.some.injEq, Prod.mk.injEq]
      push_cast
      constructor <;> ring
    · rw [if_neg hpos]
      rw [ih (x + sx) y (d + 2 * dy) m
        (by rw [hd]; ring_nf) (by linarith) (by linarith)]
      simp only [Option.getD_some, Option.some.injEq, Prod.mk.injEq]
      push_cast
      exact ⟨by ring, trivial⟩

/-- The X-major loop started as `DrawLine` starts it: `a + 1` points from
`(x1, y1)` to the other end, `a` and `b` being the distances along the major
and the minor axis. -/
theorem lineLoopX_path (a b sa sb : Int) (hb : 0 ≤ b) (hba : b ≤ a) (hsa : |sa| ≤ 1)
    (hsb : |sb| ≤ 1) (u v : Int) :
    let pts := lineLoopX a b sa sb (a + 1).toNat u v (2 * b - a)
    (pts.length : Int) = a + 1 ∧ pts.head? = some (u, v) ∧
      pts.getLast? = some (u + a * sa, v + b * sb) ∧
      List.Chain' (fun p q : Int × Int => |p.1 - q.1| ≤ 1 ∧ |p.2 - q.2| ≤ 1) pts := by
  intro pts
  have ha : 0 ≤ a := le_trans hb hba
  have hn : (a + 1).toNat = a.toNat + 1 := by omega
  have hcast : ((a.toNat : Nat) : Int) = a := by omega
  refine ⟨?_, ?_, ?_, ?_⟩
  · simp only [pts, length_lineLoopX]; omega
  · simp only [pts, hn, head?_lineLoopX]
  · simp only [pts, hn]
    rcases eq_or_lt_of_le ha with h0 | hpos
    · have hb0 : b = 0 := by omega
      subst hb0
      have ha0 : a = 0 := h0.symm
      subst ha0
      simp [lineLoopX]
    · have := getLast?_lineLoopX a b sa sb hpos hb hba a.toNat u v (2 * b - a) b
        (by rw [hcast]; ring) (by rw [hcast]; linarith [mul_comm a b])
        (by rw [hcast]; linarith [mul_comm a b])
      rw [this, hcast]
  · exact chain_lineLoopX a b sa sb hsa hsb _ _ _ _

/-- The exact path has `max(|x1-x2|, |y1-y2|) + 1` points, starts at `(x1, y1)`,
ends at `(x2, y2)`, and two consecutive points of it differ by at most 1 in each
coordinate. -/
theorem linePoints_path (x1 y1 x2 y2 : Int) :
    ((linePoints x1 y1 x2 y2).length : Int) = max |x1 - x2| |y1 - y2| + 1 ∧
    (linePoints x1 y1 x2 y2).head? = some (x1, y1) ∧
    (linePoints x1 y1 x2 y2).getLast? = some (x2, y2) ∧
    List.Chain' (fun p q : Int × Int => |p.1 - q.1| ≤ 1 ∧ |p.2 - q.2| ≤ 1)
      (linePoints x1 y1 x2 y2) := by
  have hsx : |(if x1 > x2 then (-1 : Int) else 1)| ≤ 1 := by
    split <;> simp
  have hsy : |(if y1 > y2 then (-1 : Int) else 1)| ≤ 1 := by
    split <;> simp
  have hex : x1 + |x1 - x2| * (if x1 > x2 then (-1 : Int) else 1) = x2 := by
    split
    · rw [abs_of_pos (by omega)]; ring
    · rw [abs_of_nonpos (by omega)]; ring
  have hey : y1 + |y1 - y2| * (if y1 > y2 then (-1 : Int) else 1) = y2 := by
    split
    · rw [abs_of_pos (by omega)]; ring
    · rw [abs_of_nonpos (by omega)]; ring
  unfold linePoints
  simp only
  by_cases hreg : |x1 - x2| ≥ |y1 - y2|
  · rw [if_pos hreg]
    obtain ⟨h1, h2, h3, h4⟩ := lineLoopX_path |x1 - x2| |y1 - y2| _ _ (abs_nonneg _) hreg
      hsx hsy x1 y1
    refine ⟨?_, h2, ?_, h4⟩
    · rw [h1, max_eq_left hreg]
    · rw [h3, hex, hey]
  · rw [if_neg hreg, lineLoopY_eq_swap]
    have hlt : |x1 - x2| ≤ |y1 - y2| := le_of_lt (not_le.1 hreg)
    obtain ⟨h1, h2, h3, h4⟩ := lineLoopX_path |y1 - y2| |x1 - x2| _ _ (abs_nonneg _) hlt
      hsy hsx y1 x1
    refine ⟨?_, ?_, ?_, ?_⟩
    · rw [List.length_map, h1, max_eq_right hlt]
    · rw [List.head?_map, h2]; rfl
    · rw [List.getLast?_map, h3, hex, hey]; rfl
    · rw [List.chain'_map]
      refine List.Chain'.imp ?_ h4
      intro p q hpq
      exact ⟨hpq.2, hpq.1⟩

/-- The exact paths of the two lines the specification names, one per slope
regime, and of two more directions. -/
theorem linePoints_examples :
    linePoints 0 0 5 2 = [(0, 0), (1, 0), (2, 1), (3, 1), (4, 2), (5, 2)] ∧
    linePoints 0 0 2 5 = [(0, 0), (0, 1), (1, 2), (1, 3), (2, 4), (2, 5)] ∧
    linePoints 0 0 (-5) 2 = [(0, 0), (-1, 0), (-2, 1), (-3, 1), (-4, 2), (-5, 2)] ∧
    linePoints 0 0 2 (-5) = [(0, 0), (0, -1), (1, -2), (1, -3), (2, -4), (2, -5)] := by
  decide

/-! ## DrawLine on 64-bit integers -/

theorem drawLoopX_eq_axisLoop (dx dy sx sy : Int) (p : Pixel) (n : Nat) :
    ∀ (x y d : Int) (t : DrawTrace),
      drawLoopX dx dy sx sy p n x y d t
        = axisLoop (fun t a b => plot p t a b) dx dy sx sy n x y d t := by
  induction n with
  | zero => intro x y d t; rfl
  | succ n ih =>
    intro x y d t
    rw [drawLoopX, axisLoop]
    by_cases hd : d > 0
    · simp only [hd, if_true, ih]
    · simp only [hd, if_false, ih]

theorem drawLoopY_eq_axisLoop (dx dy sx sy : Int) (p : Pixel) (n : Nat) :
    ∀ (x y d : Int) (t : DrawTrace),
      drawLoopY dx dy sx sy p n x y d t
        = axisLoop (fun t a b => plot p t b a) dy dx sy sx n y x d t := by
  induction n with
  | zero => intro x y d t; rfl
  | succ n ih =>
    intro x y d t
    rw [drawLoopY, axisLoop]
    by_cases hd : d > 0
    · simp only [hd, if_true, ih]
    · simp only [hd, if_false, ih]

/-- As long as the points to come stay within the range of `int` and the extents
are at most `2 ^ 53`, no operation of the loop wraps: the `SetPixel` calls of the
loop are the points of the exact path, in order. -/
theorem axisLoop_eq_fold (emit : DrawTrace → Int → Int → Except GoPanic DrawTrace)
    (da db sa sb : Int) (hda : 0 < da) (hda' : da ≤ 2 ^ 53) (hdb : 0 ≤ db) (hle : db ≤ da)
    (r : Nat) :
    ∀ (a b d m : Int) (t : DrawTrace), d = 2 * (m * da - r * db) + 2 * db - da →
      -da < 2 * (m * da - r * db) → 2 * (m * da - r * db) ≤ da → (r : Int) ≤ da →
      (∀ j : Int, 0 ≤ j → j ≤ r → IsInt64 (a + j * sa)) →
      (∀ k : Int, 0 ≤ k → k ≤ m → IsInt64 (b + k * sb)) →
      axisLoop emit da db sa sb (r + 1) a b d t
        = (lineLoopX da db sa sb (r + 1) a b d).foldlM (fun t pt => emit t pt.1 pt.2) t := by
  induction r with
  | zero =>
    intro a b d m t _ _ _ _ _ _
    rw [axisLoop, lineLoopX]
    by_cases hd : d > 0 <;> simp [hd, axisLoop, lineLoopX]
  | succ r ih =>
    intro a b d m t hd h1 h2 hr ha hb
    push_cast at hd h1 h2 hr
    have hQ : (0 : Int) ≤ (r : Int) * db := mul_nonneg (Int.ofNat_nonneg r) hdb
    have h253 : (2 : Int) ^ 53 = 9007199254740992 := by norm_num
    have h2da : mul64 2 da = 2 * da := by
      apply mul64_of_isInt64; unfold IsInt64; constructor <;> omega
    have h2db : mul64 2 db = 2 * db := by
      apply mul64_of_isInt64; unfold IsInt64; constructor <;> omega
    have hdlo : 2 * db - 2 * da < d := by linarith
    have hdhi : d ≤ 2 * db := by linarith
    have hasa : add64 a sa = a + sa := by
      apply add64_of_isInt64
      have := ha 1 (by norm_num) (by push_cast; linarith [Int.ofNat_nonneg r])
      simpa using this
    rw [axisLoop, lineLoopX, List.foldlM_cons]
    congr 1
    funext t1
    by_cases hpos : d > 0
    · have hm : 1 ≤ m := by
        by_contra hcon
        have hm0 : m ≤ 0 := by omega
        have : m * da ≤ 0 := mul_nonpos_of_nonpos_of_nonneg hm0 hda.le
        linarith
      have hbsb : add64 b sb = b + sb := by
        apply add64_of_isInt64
        have := hb 1 (by norm_num) hm
        simpa using this
      have hd' : add64 (sub64 d (mul64 2 da)) (mul64 2 db) = d - 2 * da + 2 * db := by
        rw [h2da, h2db, sub64_of_isInt64 _ _ (by unfold IsInt64; constructor <;> omega),
          add64_of_isInt64 _ _ (by unfold IsInt64; constructor <;> omega)]
      rw [if_pos hpos, if_pos hpos, hasa, hbsb, hd']
      refine ih (a + sa) (b + sb) (d - 2 * da + 2 * db) (m - 1) t1 (by rw [hd]; ring)
        (by linarith) (by linarith) (by linarith) ?_ ?_
      · intro j hj0 hj1
        have := ha (j + 1) (by omega) (by push_cast; omega)
        rw [show a + sa + j * sa = a + (j + 1) * sa by ring]
        exact this
      · intro k hk0 hk1
        have := hb (k + 1) (by omega) (by omega)
        rw [show b + sb + k * sb = b + (k + 1) * sb by ring]
        exact this
    · have hd' : add64 d (mul64 2 db) = d + 2 * db := by
        rw [h2db, add64_of_isInt64 _ _ (by unfold IsInt64; constructor <;> omega)]
      rw [if_neg hpos, if_neg hpos, hasa, hd']
      refine ih (a + sa) b (d + 2 * db) m t1 (by rw [hd]; ring)
        (by linarith) (by linarith) (by linarith) ?_ hb
      intro j hj0 hj1
      have := ha (j + 1) (by omega) (by push_cast; omega)
      rw [show a + sa + j * sa = a + (j + 1) * sa by ring]
      exact this

/-- The loop along the longer extent, started as `DrawLine` starts it between
two points of `int` coordinates at most `2 ^ 53` apart, makes its `SetPixel`
calls at the points of the exact path. -/
theorem axisLoop_start (emit : DrawTrace → Int → Int → Except GoPanic DrawTrace)
    (a1 b1 a2 b2 : Int) (ha1 : IsInt64 a1) (hb1 : IsInt64 b1) (ha2 : IsInt64 a2)
    (hb2 : IsInt64 b2) (hA : |a1 - a2| ≤ 2 ^ 53) (hreg : |b1 - b2| ≤ |a1 - a2|)
    (t : DrawTrace) :
    axisLoop emit |a1 - a2| |b1 - b2| (if a1 > a2 then -1 else 1) (if b1 > b2 then -1 else 1)
        (|a1 - a2| + 1).toNat a1 b1 (sub64 (mul64 2 |b1 - b2|) |a1 - a2|) t
      = (lineLoopX |a1 - a2| |b1 - b2| (if a1 > a2 then -1 else 1) (if b1 > b2 then -1 else 1)
          (|a1 - a2| + 1).toNat a1 b1 (2 * |b1 - b2| - |a1 - a2|)).foldlM
          (fun t pt => emit t pt.1 pt.2) t := by
  have h253 : (2 : Int) ^ 53 = 9007199254740992 := by norm_num
  have hda0 : 0 ≤ |a1 - a2| := abs_nonneg _
  have hdb0 : 0 ≤ |b1 - b2| := abs_nonneg _
  have hd : sub64 (mul64 2 |b1 - b2|) |a1 - a2| = 2 * |b1 - b2| - |a1 - a2| := by
    rw [mul64_of_isInt64 _ _ (by unfold IsInt64; constructor <;> omega),
      sub64_of_isInt64 _ _ (by unfold IsInt64; constructor <;> omega)]
  rw [hd]
  have hn : (|a1 - a2| + 1).toNat = |a1 - a2|.toNat + 1 := by omega
  have hcast : ((|a1 - a2|.toNat : Nat) : Int) = |a1 - a2| := by omega
  rw [hn]
  rcases eq_or_lt_of_le hda0 with h0 | hpos
  · have hb0 : |b1 - b2| = 0 := by omega
    rw [← h0, hb0]
    simp only [Int.toNat_zero, Nat.zero_add]
    rw [axisLoop, lineLoopX]
    simp [axisLoop, lineLoopX]
  · unfold IsInt64 at ha1 hb1 ha2 hb2
    refine axisLoop_eq_fold emit _ _ _ _ hpos hA hdb0 hreg _ a1 b1 _ |b1 - b2| t
      (by rw [hcast]; ring) (by rw [hcast]; linarith [mul_comm |a1 - a2| |b1 - b2|])
      (by rw [hcast]; linarith [mul_comm |a1 - a2| |b1 - b2|]) (by rw [hcast]) ?_ ?_
    · intro j hj0 hj1
      rw [hcast] at hj1
      unfold IsInt64
      by_cases hgt : a1 > a2
      · rw [if_pos hgt]
        rw [abs_of_pos (by omega)] at hj1
        constructor <;> omega
      · rw [if_neg hgt]
        rw [abs_of_nonpos (by omega)] at hj1
        constructor <;> omega
    · intro k hk0 hk1
      unfold IsInt64
      by_cases hgt : b1 > b2
      · rw [if_pos hgt]
        rw [abs_of_pos (by omega)] at hk1
        constructor <;> omega
      · rw [if_neg hgt]
        rw [abs_of_nonpos (by omega)] at hk1
        constructor <;> omega

/-- Between two points of `int` coordinates at most `2 ^ 53` apart on each axis,
`DrawLine` makes its `SetPixel` calls at the points of the exact path. -/
theorem DrawLine_eq_fold (pb : PixelBuffer) (x1 y1 x2 y2 : Int) (p : Pixel)
    (hx1 : IsInt64 x1) (hy1 : IsInt64 y1) (hx2 : IsInt64 x2) (hy2 : IsInt64 y2)
    (hX : |x1 - x2| ≤ 2 ^ 53) (hY : |y1 - y2| ≤ 2 ^ 53) :
    DrawLine pb x1 y1 x2 y2 p
      = (linePoints x1 y1 x2 y2).foldlM (fun t pt => plot p t pt.1 pt.2)
          { pb := pb, calls := [] } := by
  have h253 : (2 : Int) ^ 53 = 9007199254740992 := by norm_num
  have hsx : sub64 x1 x2 = x1 - x2 := by
    apply sub64_of_isInt64
    have := abs_le.1 hX
    unfold IsInt64; constructor <;> omega
  have hsy : sub64 y1 y2 = y1 - y2 := by
    apply sub64_of_isInt64
    have := abs_le.1 hY
    unfold IsInt64; constructor <;> omega
  unfold DrawLine linePoints
  simp only [hsx, hsy, absViaFloat64_exact _ hX, absViaFloat64_exact _ hY]
  by_cases hreg : |x1 - x2| ≥ |y1 - y2|
  · rw [if_pos hreg, if_pos hreg, drawLoopX_eq_axisLoop]
    exact axisLoop_start _ x1 y1 x2 y2 hx1 hy1 hx2 hy2 hX hreg _
  · rw [if_neg hreg, if_neg hreg, drawLoopY_eq_axisLoop, lineLoopY_eq_swap, List.foldlM_map]
    exact axisLoop_start _ y1 x1 y2 x2 hy1 hx1 hy2 hx2 hY (le_of_lt (not_le.1 hreg)) _

/-- On a well-formed buffer `SetPixel` returns normally and keeps the shape of
the buffer. -/
theorem SetPixel_ok (pb : PixelBuffer) (hwf : WellFormed pb) (x y : Int) (p : Pixel) :
    ∃ pb', SetPixel pb x y p = .ok pb' ∧ pb'.Width = pb.Width ∧ pb'.Height = pb.Height ∧
      WellFormed pb' := by
  unfold SetPixel
  by_cases hin : x ≥ 0 ∧ x < pb.Width ∧ y ≥ 0 ∧ y < pb.Height
  · rw [if_pos hin]
    obtain ⟨pb', hok, hW, hH, hwf', _⟩ := setCell_ok pb hwf x y p hin.1 hin.2.1 hin.2.2.1 hin.2.2.2
    exact ⟨pb', hok, hW, hH, hwf'⟩
  · rw [if_neg hin]
    exact ⟨pb, rfl, rfl, rfl, hwf⟩

/-- Recorded `SetPixel` calls at the points `pts` on a well-formed buffer all
return normally: the record grows by `pts` and the buffer is the one the
`SetPixel` calls build. -/
theorem plot_fold (p : Pixel) (pts : List (Int × Int)) :
    ∀ (pb : PixelBuffer) (calls : List (Int × Int)), WellFormed pb →
      ∃ pb', pts.foldlM (fun t pt => plot p t pt.1 pt.2) { pb := pb, calls := calls }
          = .ok { pb := pb', calls := calls ++ pts } ∧
        pts.foldlM (fun b pt => SetPixel b pt.1 pt.2 p) pb = .ok pb' ∧
        pb'.Width = pb.Width ∧ pb'.Height = pb.Height ∧ WellFormed pb' := by
  induction pts with
  | nil => intro pb calls hwf; exact ⟨pb, by simp [pure, Except.pure], rfl, rfl, rfl, hwf⟩
  | cons pt pts ih =>
    intro pb calls hwf
    obtain ⟨pb1, hok, hW, hH, hwf1⟩ := SetPixel_ok pb hwf pt.1 pt.2 p
    obtain ⟨pb', hfold, hset, hW', hH', hwf'⟩ := ih pb1 (calls ++ [pt]) hwf1
    refine ⟨pb', ?_, ?_, by omega, by omega, hwf'⟩
    · rw [List.foldlM_cons]
      have hplot : plot p { pb := pb, calls := calls } pt.1 pt.2
          = .ok { pb := pb1, calls := calls ++ [pt] } := by
        unfold plot
        simp only [hok, bind, Except.bind, pure, Except.pure]
      rw [hplot]
      simp only [bind, Except.bind]
      rw [hfold, List.append_assoc, List.singleton_append]
    · rw [List.foldlM_cons, hok]
      exact hset

/-- The first loop of `DrawLine` on a well-formed buffer returns normally after
one `SetPixel` call per iteration, whatever its operations wrap around to. -/
theorem drawLoopX_calls_length (dx dy sx sy : Int) (p : Pixel) (n : Nat) :
    ∀ (x y d : Int) (t : DrawTrace), WellFormed t.pb →
      ∃ t', drawLoopX dx dy sx sy p n x y d t = .ok t' ∧
        t'.calls.length = t.calls.length + n := by
  induction n with
  | zero => intro x y d t _; exact ⟨t, rfl, rfl⟩
  | succ n ih =>
    intro x y d t hwf
    obtain ⟨pb1, hok, _, _, hwf1⟩ := SetPixel_ok t.pb hwf x y p
    have hplot : plot p t x y = .ok { pb := pb1, calls := t.calls ++ [(x, y)] } := by
      unfold plot
      simp only [hok, bind, Except.bind, pure, Except.pure]
    rw [drawLoopX, hplot]
    simp only [bind, Except.bind]
    by_cases hd : d > 0
    · rw [if_pos hd]
      obtain ⟨t', h1, h2⟩ := ih (add64 x sx) (add64 y sy)
        (add64 (sub64 d (mul64 2 dx)) (mul64 2 dy)) { pb := pb1, calls := t.calls ++ [(x, y)] } hwf1
      exact ⟨t', h1, by rw [h2]; simp; omega⟩
    · rw [if_neg hd]
      obtain ⟨t', h1, h2⟩ := ih (add64 x sx) y (add64 d (mul64 2 dy))
        { pb := pb1, calls := t.calls ++ [(x, y)] } hwf1
      exact ⟨t', h1, by rw [h2]; simp; omega⟩

/-- C3 fails for points far apart: from `(0, 0)` to `(2 ^ 53 + 1, 0)` the
conversion through `float64` rounds the extent down to `2 ^ 53`, and `DrawLine`
passes `2 ^ 53 + 1` points to `SetPixel` where the claim counts `2 ^ 53 + 2`;
from `(-2 ^ 63, 0)` to `(0, 0)`, with the conversion of amd64, it passes the one
point `(-2 ^ 63, 0)`. -/
theorem DrawLine_far_points_fall_short :
    WellFormed blank2x2 ∧
    (∃ t, DrawLine blank2x2 0 0 (2 ^ 53 + 1) 0 pixelA = .ok t ∧
      (t.calls.length : Int) = 2 ^ 53 + 1 ∧
      (t.calls.length : Int) ≠ max |(0 : Int) - (2 ^ 53 + 1)| |(0 : Int) - 0| + 1) ∧
    DrawLine blank2x2 (-2 ^ 63) 0 0 0 pixelA
      = .ok { pb := blank2x2, calls := [(-2 ^ 63, 0)] } := by
  refine ⟨by decide, ?_, by decide⟩
  have hdx : absViaFloat64 (sub64 0 (2 ^ 53 + 1)) = 2 ^ 53 := by decide
  have hdy : absViaFloat64 (sub64 0 0) = 0 := by decide
  obtain ⟨t, hok, hlen⟩ := drawLoopX_calls_length (2 ^ 53) 0 1 1 pixelA (2 ^ 53 + 1 : Int).toNat
    0 0 (sub64 (mul64 2 0) (2 ^ 53)) { pb := blank2x2, calls := [] } (by decide)
  refine ⟨t, ?_, ?_, ?_⟩
  · unfold DrawLine
    simp only [hdx, hdy]
    rw [if_pos (by norm_num), if_neg (by norm_num), if_neg (by norm_num)]
    exact hok
  · rw [hlen]
    simp
  · rw [hlen]
    simp

/-- C3 amended: on a well-formed buffer, for all points whose `int` coordinates
are at most `2 ^ 53` apart on each axis, `DrawLine` returns normally, and the
sequence of points it passes to `SetPixel` has `max(|x1-x2|, |y1-y2|) + 1`
elements, starts at `(x1, y1)`, ends at `(x2, y2)`, and two consecutive points
of it differ by at most 1 in each coordinate; the buffer it leaves is the one
these `SetPixel` calls build. -/
theorem DrawLine_plots_path (pb : PixelBuffer) (hwf : WellFormed pb) (x1 y1 x2 y2 : Int)
    (p : Pixel) (hx1 : IsInt64 x1) (hy1 : IsInt64 y1) (hx2 : IsInt64 x2) (hy2 : IsInt64 y2)
    (hX : |x1 - x2| ≤ 2 ^ 53) (hY : |y1 - y2| ≤ 2 ^ 53) :
    ∃ t, DrawLine pb x1 y1 x2 y2 p = .ok t ∧
      (t.calls.length : Int) = max |x1 - x2| |y1 - y2| + 1 ∧
      t.calls.head? = some (x1, y1) ∧
      t.calls.getLast? = some (x2, y2) ∧
      List.Chain' (fun a b : Int × Int => |a.1 - b.1| ≤ 1 ∧ |a.2 - b.2| ≤ 1) t.calls ∧
      t.calls.foldlM (fun b pt => SetPixel b pt.1 pt.2 p) pb = .ok t.pb := by
  obtain ⟨pb', hfold, hset, _, _, _⟩ := plot_fold p (linePoints x1 y1 x2 y2) pb [] hwf
  obtain ⟨h1, h2, h3, h4⟩ := linePoints_path x1 y1 x2 y2
  refine ⟨{ pb := pb', calls := [] ++ linePoints x1 y1 x2 y2 }, ?_, ?_, ?_, ?_, ?_, ?_⟩
  · rw [DrawLine_eq_fold pb x1 y1 x2 y2 p hx1 hy1 hx2 hy2 hX hY]
    exact hfold
  · simpa using h1
  · simpa using h2
  · simpa using h3
  · simpa using h4
  · simpa using hset

/-- C3 amended on the two lines the specification names, `(0,0)` to `(5,2)` and
`(0,0)` to `(2,5)`, drawn on the blank 2x2 buffer. -/
theorem DrawLine_plots_path_witness :
    WellFormed blank2x2 ∧ IsInt64 0 ∧ IsInt64 5 ∧ IsInt64 2 ∧
    |(0 : Int) - 5| ≤ 2 ^ 53 ∧ |(0 : Int) - 2| ≤ 2 ^ 53 ∧
    (∃ t, DrawLine blank2x2 0 0 5 2 pixelA = .ok t ∧
      (t.calls.length : Int) = max |(0 : Int) - 5| |(0 : Int) - 2| + 1 ∧
      t.calls.head? = some (0, 0) ∧
      t.calls.getLast? = some (5, 2) ∧
      List.Chain' (fun a b : Int × Int => |a.1 - b.1| ≤ 1 ∧ |a.2 - b.2| ≤ 1) t.calls ∧
      t.calls.foldlM (fun b pt => SetPixel b pt.1 pt.2 pixelA) blank2x2 = .ok t.pb) ∧
    DrawLine blank2x2 0 0 5 2 pixelA
      = .ok { pb := { Width := 2, Height := 2,
                      Data := [[pixelA, pixelA], [Pixel.zero, Pixel.zero]] },
              calls := [(0, 0), (1, 0), (2, 1), (3, 1), (4, 2), (5, 2)] } ∧
    (DrawLine blank2x2 0 0 2 5 pixelA).map (fun t => t.calls)
      = .ok [(0, 0), (0, 1), (1, 2), (1, 3), (2, 4), (2, 5)] :=
  ⟨by decide, by decide, by decide, by decide, by decide, by decide,
   DrawLine_plots_path blank2x2 (by decide) 0 0 5 2 pixelA (by decide) (by decide) (by decide)
     (by decide) (by decide) (by decide),
   by decide, by decide⟩

/-! ## Composite -/

/-- The integer test of `gtHalf` decides `m * 2 ^ e > 1 / 2` over the rationals. -/
theorem gtHalf_finite_iff (m e : Int) :
    Float32.gtHalf (.finite m e) = true ↔ (m : ℚ) * (2 : ℚ) ^ e > 1 / 2 := by
  simp only [Float32.gtHalf]
  have h2 : (0 : ℚ) < 2 := by norm_num
  by_cases he : e + 1 ≥ 0
  · rw [if_pos he, decide_eq_true_iff]
    obtain ⟨k, hk⟩ := Int.eq_ofNat_of_zero_le he
    have hek : e = (k : Int) - 1 := by omega
    have hpow : (2 : ℚ) ^ e = (2 : ℚ) ^ k / 2 := by
      rw [hek, zpow_sub₀ (by norm_num), zpow_natCast, zpow_one]
    rw [hk, Int.toNat_ofNat, hpow]
    have : (m : ℚ) * ((2 : ℚ) ^ k / 2) > 1 / 2 ↔ (m : ℚ) * (2 : ℚ) ^ k > 1 := by
      constructor <;> intro h <;> linarith
    rw [this]
    exact_mod_cast Iff.rfl
  · rw [if_neg he, decide_eq_true_iff]
    obtain ⟨k, hk⟩ := Int.eq_ofNat_of_zero_le (show 0 ≤ -(e + 1) by omega)
    have hek : e = -((k : Int) + 1) := by omega
    have hpos : (0 : ℚ) < (2 : ℚ) ^ k := pow_pos h2 k
    have hpow : (2 : ℚ) ^ e = 1 / ((2 : ℚ) ^ k * 2) := by
      rw [hek, zpow_neg, ← zpow_natCast, ← zpow_add_one₀ (by norm_num)]
      simp
    rw [hk, Int.toNat_ofNat, hpow]
    have : (m : ℚ) * (1 / ((2 : ℚ) ^ k * 2)) > 1 / 2 ↔ (m : ℚ) > (2 : ℚ) ^ k := by
      rw [mul_one_div, gt_iff_lt, div_lt_div_iff₀ (by norm_num) (by positivity)]
      constructor <;> intro h <;> nlinarith
    rw [this]
    exact_mod_cast Iff.rfl

theorem mapM_replicate_ok {α β : Type} (n : Nat) (a : α) (b : β) :
    (List.replicate n a).mapM (fun _ => (Except.ok b : Except GoPanic β)) =
      .ok (List.replicate n b) := by
  induction n with
  | zero => rfl
  | succ n ih =>
    rw [List.replicate_succ, List.mapM_cons, ih]
    rfl

/-- `NewPixelBuffer` succeeds unless it is asked for a negative number of rows
or for rows of negative length, and the buffer it returns is well formed and all
zero. -/
theorem NewPixelBuffer_ok (W H : Int) (hH : 0 ≤ H) (hW : 0 < H → 0 ≤ W) :
    ∃ pb, NewPixelBuffer W H = .ok pb ∧ pb.Width = W ∧ pb.Height = H ∧ WellFormed pb ∧
      ∀ x y, 0 ≤ x → x < W → 0 ≤ y → y < H → cell pb x y = some Pixel.zero := by
  rcases eq_or_lt_of_le hH with h0 | hpos
  · subst h0
    refine ⟨⟨W, 0, []⟩, ?_, rfl, rfl, ?_, ?_⟩
    · rfl
    · exact ⟨rfl, by simp⟩
    · intro x y _ _ h1 h2; omega
  · have hW0 := hW hpos
    refine ⟨⟨W, H, List.replicate H.toNat (List.replicate W.toNat Pixel.zero)⟩, ?_, rfl, rfl,
      ?_, ?_⟩
    · unfold NewPixelBuffer makeSlice
      rw [if_neg (by omega), if_neg (by omega)]
      simp only [bind, Except.bind]
      rw [mapM_replicate_ok]
      rfl
    · refine ⟨by simp; omega, ?_⟩
      intro row hrow
      rw [List.eq_of_mem_replicate hrow]
      simp; omega
    · intro x y hx0 hx1 hy0 hy1
      rw [cell_eq, if_pos ⟨hx0, hy0⟩]
      have h1 : y.toNat < H.toNat := by omega
      have h2 : x.toNat < W.toNat := by omega
      simp [List.getElem?_replicate, h1, h2]

theorem getCell_ok (pb : PixelBuffer) (hwf : WellFormed pb) (x y : Int)
    (hx0 : 0 ≤ x) (hx1 : x < pb.Width) (hy0 : 0 ≤ y) (hy1 : y < pb.Height) :
    ∃ c, getCell pb y x = .ok c ∧ cell pb x y = some c := by
  obtain ⟨hlen, hrows⟩ := hwf
  have hy : y.toNat < pb.Data.length := by omega
  have hrow : ((pb.Data[y.toNat]).length : Int) = pb.Width :=
    hrows _ (List.getElem_mem _)
  have hx : x.toNat < (pb.Data[y.toNat]).length := by omega
  have hget : getCell pb y x = .ok ((pb.Data[y.toNat])[x.toNat]) := by
    unfold getCell
    rw [index_eq_ok _ _ hy0 hy]
    simp only [bind, Except.bind]
    rw [index_eq_ok _ _ hx0 hx]
  exact ⟨_, hget, by unfold cell; rw [hget]⟩

theorem lastVisible_append (pre : List Layer) (l : Layer) :
    lastVisible (pre ++ [l]) = if l.Alpha.gtHalf then some l else lastVisible pre := by
  unfold lastVisible
  rw [List.filter_append]
  by_cases hv : l.Alpha.gtHalf = true
  · simp [hv, List.filter_cons]
  · simp [hv, List.filter_cons]

/-- The loops of `Composite` over one layer of the size of the result: a layer
with `Alpha > 0.5` overwrites every cell, any other layer changes nothing. -/
theorem compositeLayer_ok (W H : Int) (l : Layer) (hl : WellFormed l.Buffer)
    (hlW : l.Buffer.Width = W) (hlH : l.Buffer.Height = H)
    (s : PixelBuffer) (hW : s.Width = W) (hH : s.Height = H) (hwf : WellFormed s) :
    ∃ s', compositeLayer s l = .ok s' ∧ s'.Width = W ∧ s'.Height = H ∧ WellFormed s' ∧
      ∀ x y, 0 ≤ x → x < W → 0 ≤ y → y < H →
        cell s' x y = if l.Alpha.gtHalf then cell l.Buffer x y else cell s x y := by
  have key := region_loop W H (intRange 0 l.Buffer.Height)
    (fun s y => (intRange 0 l.Buffer.Width).foldlM (fun s x => compositeCell l s y x) s)
    (fun i x y => l.Alpha.gtHalf = true ∧ y = i ∧ x ∈ intRange 0 W)
    (fun x y => cell l.Buffer x y) ?_ s hW hH hwf
  · obtain ⟨s', hok, hW', hH', hwf', hc⟩ := key
    refine ⟨s', hok, hW', hH', hwf', ?_⟩
    intro x y hx0 hx1 hy0 hy1
    by_cases hv : l.Alpha.gtHalf = true
    · rw [if_pos hv]
      refine (hc x y).1 ⟨y, ?_, hv, rfl, ?_⟩
      · rw [mem_intRange]; omega
      · rw [mem_intRange]; omega
    · rw [if_neg hv]
      exact (hc x y).2 (fun i _ h => hv h.1)
  · intro t i hi htW htH htwf
    rw [mem_intRange] at hi
    have inner := region_loop W H (intRange 0 l.Buffer.Width)
      (fun s x => compositeCell l s i x)
      (fun j x y => l.Alpha.gtHalf = true ∧ x = j ∧ y = i)
      (fun x y => cell l.Buffer x y) ?_ t htW htH htwf
    · obtain ⟨t', hok, hW', hH', hwf', hc⟩ := inner
      refine ⟨t', hok, hW', hH', hwf', fun x y => ⟨?_, ?_⟩⟩
      · rintro ⟨hv, hy, hx⟩
        rw [← hlW] at hx
        exact (hc x y).1 ⟨x, hx, hv, rfl, hy⟩
      · intro hn
        refine (hc x y).2 ?_
        rintro j hj ⟨hv, rfl, hy⟩
        rw [hlW] at hj
        exact hn ⟨hv, hy, hj⟩
    · intro u j hj huW huH huwf
      rw [mem_intRange] at hj
      obtain ⟨c, hget, hcell⟩ := getCell_ok l.Buffer hl j i (by omega) (by omega) (by omega)
        (by omega)
      beta_reduce
      unfold compositeCell
      rw [hget]
      simp only [bind, Except.bind]
      by_cases hv : l.Alpha.gtHalf = true
      · rw [if_pos hv]
        obtain ⟨u', hok, hW', hH', hwf', hc⟩ :=
          setCell_ok u huwf j i c (by omega) (by omega) (by omega) (by omega)
        refine ⟨u', hok, by omega, by omega, hwf', fun x y => ⟨?_, ?_⟩⟩
        · rintro ⟨_, rfl, rfl⟩
          rw [hc, if_pos ⟨rfl, rfl⟩, hcell]
        · intro hn
          rw [hc, if_neg (fun h => hn ⟨hv, h.1, h.2⟩)]
      · rw [if_neg hv]
        exact ⟨u, rfl, huW, huH, huwf, fun x y => ⟨fun h => absurd h.1 hv, fun _ => rfl⟩⟩

/-- C4: for a non-empty list of layers whose buffers are well formed and all
`W` by `H`, `Composite` returns a well-formed `W` by `H` buffer in which every
cell is the cell of the last layer in insertion order with `Alpha > 0.5`, or the
zero `Pixel` when there is no such layer; `ZIndex` plays no part. -/
theorem Composite_last_visible (c : Compositor) (W H : Int) (hne : c.Layers ≠ [])
    (hall : ∀ l ∈ c.Layers, WellFormed l.Buffer ∧ l.Buffer.Width = W ∧ l.Buffer.Height = H) :
    ∃ res, c.Composite = .ok res ∧ res.Width = W ∧ res.Height = H ∧ WellFormed res ∧
      ∀ x y, 0 ≤ x → x < W → 0 ≤ y → y < H →
        cell res x y =
          match lastVisible c.Layers with
          | some l => cell l.Buffer x y
          | none => some Pixel.zero := by
  obtain ⟨layers⟩ := c
  cases layers with
  | nil => exact absurd rfl hne
  | cons l0 rest =>
    obtain ⟨hwf0, hW0, hH0⟩ := hall l0 (List.mem_cons_self _ _)
    have hHnn : 0 ≤ H := by
      have := hwf0.1; omega
    have hWnn : 0 < H → 0 ≤ W := by
      intro hpos
      have hlen : 0 < l0.Buffer.Data.length := by
        have := hwf0.1; omega
      have := hwf0.2 (l0.Buffer.Data[0]) (List.getElem_mem _)
      omega
    obtain ⟨r0, hnew, hrW, hrH, hrwf, hrcells⟩ := NewPixelBuffer_ok W H hHnn hWnn
    have key := foldlM_invariant compositeLayer
      (fun pre s => s.Width = W ∧ s.Height = H ∧ WellFormed s ∧
        ∀ x y, 0 ≤ x → x < W → 0 ≤ y → y < H →
          cell s x y =
            match lastVisible pre with
            | some l => cell l.Buffer x y
            | none => some Pixel.zero)
      (l0 :: rest) ?_ [] r0 ⟨hrW, hrH, hrwf, hrcells⟩
    · obtain ⟨res, hfold, hres⟩ := key
      refine ⟨res, ?_, by simpa using hres⟩
      unfold Compositor.Composite
      have hidx : index (l0 :: rest) 0 = .ok l0 :=
        index_eq_ok (l0 :: rest) 0 (le_refl 0) (by simp)
      simp only [hidx, bind, Except.bind, hW0, hH0, hnew]
      exact hfold
    · rintro pre l s hl ⟨hsW, hsH, hswf, hcells⟩
      obtain ⟨hlwf, hlW, hlH⟩ := hall l hl
      obtain ⟨s', hok, hW', hH', hwf', hc⟩ := compositeLayer_ok W H l hlwf hlW hlH s hsW hsH hswf
      refine ⟨s', hok, hW', hH', hwf', ?_⟩
      intro x y hx0 hx1 hy0 hy1
      rw [hc x y hx0 hx1 hy0 hy1, lastVisible_append]
      by_cases hv : l.Alpha.gtHalf = true
      · simp only [hv, if_true]
      · simp only [hv, if_false]
        exact hcells x y hx0 hx1 hy0 hy1

/-- C4 on 1x1 two-layer stacks: with the top layer at 0.6 the result is the top
layer's cell, with both layers at 0.5 it is the zero cell and not the bottom
layer's. -/
theorem Composite_last_visible_witness :
    (({ Layers := [] } : Compositor).AddLayer (layerA .half)).AddLayer (layerB .sixTenths)
      = { Layers := [layerA .half, layerB .sixTenths] } ∧
    (∃ res, Compositor.Composite { Layers := [layerA .half, layerB .sixTenths] } = .ok res ∧
      res.Width = 1 ∧ res.Height = 1 ∧ WellFormed res ∧
      ∀ x y, 0 ≤ x → x < 1 → 0 ≤ y → y < 1 →
        cell res x y =
          match lastVisible [layerA .half, layerB .sixTenths] with
          | some l => cell l.Buffer x y
          | none => some Pixel.zero) ∧
    lastVisible [layerA .half, layerB .sixTenths] = some (layerB .sixTenths) ∧
    Compositor.Composite { Layers := [layerA .half, layerB .sixTenths] } =
      .ok { Width := 1, Height := 1, Data := [[pixelB]] } ∧
    Compositor.Composite { Layers := [layerA .half, layerB .half] } =
      .ok { Width := 1, Height := 1, Data := [[Pixel.zero]] } :=
  ⟨rfl,
   Composite_last_visible { Layers := [layerA .half, layerB .sixTenths] } 1 1 (by decide)
     (by decide),
   by decide, by decide, by decide⟩

/-! ## The renderer -/

namespace StandardRenderer

theorem string_length_eq_zero (s : String) (h : s.length = 0) : s = "" := by
  cases s with
  | mk data =>
    have hd : data.length = 0 := h
    rw [List.length_eq_zero] at hd
    subst hd
    rfl

/-- The content `Write(s)` leaves in the pending buffer. -/
theorem Write_buf (r : StandardRenderer) (s : String) :
    (r.Write s).buf = if s = "" then " " else s := by
  unfold Write
  simp only
  split <;> simp

theorem Write_buf_ne_empty (r : StandardRenderer) (s : String) : (r.Write s).buf ≠ "" := by
  rw [Write_buf]
  split
  · decide
  · assumption

theorem Write_eq (r : StandardRenderer) (s : String) :
    r.Write s = { r with buf := if s = "" then " " else s } := by
  have h := Write_buf r s
  unfold Write at h ⊢
  simp only at h ⊢
  rw [h]

/-- A flush of a pending buffer equal to the last flushed frame is skipped. -/
theorem flush_skip (a : Ansi) (r : StandardRenderer) (h : r.buf = r.lastRender) :
    flush a r = r := by
  unfold flush
  rw [if_pos (Or.inr h)]

/-- After a flush of a non-empty pending buffer the last flushed frame is that
buffer. -/
theorem flush_lastRender (a : Ansi) (r : StandardRenderer) (h : r.buf ≠ "") :
    (flush a r).lastRender = r.buf := by
  unfold flush
  by_cases hskip : r.buf.length = 0 ∨ r.buf = r.lastRender
  · rw [if_pos hskip]
    rcases hskip with h0 | h1
    · exact absurd (string_length_eq_zero _ h0) h
    · exact h1.symm
  · rw [if_neg hskip]

/-- A flush writes to the stream at most once. -/
theorem flush_out (a : Ansi) (r : StandardRenderer) :
    (flush a r).out = r.out ∨ ∃ frame, (flush a r).out = r.out ++ [frame] := by
  unfold flush
  by_cases hskip : r.buf.length = 0 ∨ r.buf = r.lastRender
  · rw [if_pos hskip]; exact Or.inl rfl
  · rw [if_neg hskip]; exact Or.inr ⟨_, rfl⟩

/-- C5: in `Write(s); flush; Write(s); flush` the second flush is skipped: it
writes nothing to the output stream and leaves the whole renderer state, the
diff state included, as the second `Write` left it; the four calls together
write at most one frame to the stream. -/
theorem flush_same_content_twice (a : Ansi) (r : StandardRenderer) (s : String) :
    flush a ((flush a (r.Write s)).Write s) = (flush a (r.Write s)).Write s ∧
    (flush a ((flush a (r.Write s)).Write s)).out = (flush a (r.Write s)).out ∧
    (flush a ((flush a (r.Write s)).Write s)).lastRender = (flush a (r.Write s)).lastRender ∧
    (flush a ((flush a (r.Write s)).Write s)).lastRenderedLines
      = (flush a (r.Write s)).lastRenderedLines ∧
    (flush a ((flush a (r.Write s)).Write s)).linesRendered
      = (flush a (r.Write s)).linesRendered ∧
    (flush a ((flush a (r.Write s)).Write s)).altLinesRendered
      = (flush a (r.Write s)).altLinesRendered ∧
    ((flush a ((flush a (r.Write s)).Write s)).out = r.out ∨
      ∃ frame, (flush a ((flush a (r.Write s)).Write s)).out = r.out ++ [frame]) := by
  have hlast : (flush a (r.Write s)).lastRender = (r.Write s).buf :=
    flush_lastRender a _ (Write_buf_ne_empty r s)
  have hskip : flush a ((flush a (r.Write s)).Write s) = (flush a (r.Write s)).Write s := by
    apply flush_skip
    rw [Write_buf, Write_eq (flush a (r.Write s)) s]
    simp only
    rw [hlast, Write_buf]
  rw [hskip]
  refine ⟨rfl, ?_, ?_, ?_, ?_, ?_, ?_⟩
  · rw [Write_eq]
  · rw [Write_eq]
  · rw [Write_eq]
  · rw [Write_eq]
  · rw [Write_eq]
  · rw [Write_eq]
    simp only
    have := flush_out a (r.Write s)
    rw [Write_eq r s] at this ⊢
    exact this

/-- C6: `Write(a)` followed by `Write(b)` leaves the renderer in the state
`Write(b)` alone leaves it in; the pending buffer is `b`, or one space when `b`
is empty; neither call writes to the output stream. -/
theorem Write_latest_wins (r : StandardRenderer) (a b : String) :
    (r.Write a).Write b = r.Write b ∧
    ((r.Write a).Write b).buf = (if b = "" then " " else b) ∧
    (r.Write a).out = r.out ∧ ((r.Write a).Write b).out = r.out := by
  refine ⟨?_, Write_buf _ _, ?_, ?_⟩
  · rw [Write_eq (r.Write a) b, Write_eq r a, Write_eq r b]
  · rw [Write_eq]
  · rw [Write_eq, Write_eq]

theorem EnterAltScreen_active (a : Ansi) (r : StandardRenderer) :
    (EnterAltScreen a r).altScreenActive = true := by
  unfold EnterAltScreen
  by_cases h : r.altScreenActive = true
  · rw [if_pos h]; exact h
  · rw [if_neg h]
    simp only [Repaint, restoreCursor, execute]
    split <;> rfl

theorem ExitAltScreen_inactive (a : Ansi) (r : StandardRenderer) :
    (ExitAltScreen a r).altScreenActive = false := by
  unfold ExitAltScreen
  by_cases h : r.altScreenActive = true
  · simp only [h, Bool.not_true, Bool.false_eq_true, if_false, Repaint, restoreCursor, execute]
    split <;> rfl
  · have hf : r.altScreenActive = false := by simpa using h
    simp only [hf, Bool.not_false, if_true]

/-- C10: a second `EnterAltScreen` in a row changes neither the renderer state
nor the output stream, and so does a second `ExitAltScreen`: two calls give the
state and the stream of one. -/
theorem AltScreen_switch_idempotent (a : Ansi) (r : StandardRenderer) :
    EnterAltScreen a (EnterAltScreen a r) = EnterAltScreen a r ∧
    (EnterAltScreen a (EnterAltScreen a r)).out = (EnterAltScreen a r).out ∧
    ExitAltScreen a (ExitAltScreen a r) = ExitAltScreen a r ∧
    (ExitAltScreen a (ExitAltScreen a r)).out = (ExitAltScreen a r).out := by
  have hE : EnterAltScreen a (EnterAltScreen a r) = EnterAltScreen a r := by
    have h := EnterAltScreen_active a r
    generalize EnterAltScreen a r = r1 at h
    unfold EnterAltScreen
    rw [if_pos h]
  have hX : ExitAltScreen a (ExitAltScreen a r) = ExitAltScreen a r := by
    have h := ExitAltScreen_inactive a r
    generalize ExitAltScreen a r = r1 at h
    unfold ExitAltScreen
    rw [h]
    rfl
  exact ⟨hE, by rw [hE], hX, by rw [hX]⟩

end StandardRenderer

/-! ## ReadInput -/

/-- C7 fails for the byte ESC: the one-byte chunk `0x1b` is not `0x03`, yet the
decoder sends no message for it. -/
theorem single_escape_byte_dropped :
    (27 : Byte) ≠ 3 ∧
    readStep ⟨[27], false⟩ = ⟨[], true⟩ ∧
    readStep ⟨[27], false⟩ ≠ ⟨[.KeyMsg 27], true⟩ ∧
    ReadInput [⟨[27], false⟩] = ([], false) := by
  decide

/-- C7 amended: a chunk of exactly one byte `b` other than `0x03` and `0x1b`
makes the decoder send exactly one message, `KeyMsg{Rune: b}`, and go on
reading; the one-byte chunk `0x1b` makes it send nothing and go on reading. -/
theorem single_byte_decoded (b : Byte) (h3 : b ≠ 3) :
    (b ≠ 27 → readStep ⟨[b], false⟩ = ⟨[.KeyMsg (b.val : Int)], true⟩) ∧
    (b = 27 → readStep ⟨[b], false⟩ = ⟨[], true⟩) := by
  constructor
  · intro hesc
    simp [readStep, decodeChunk, decodeFirst, h3, hesc]
  · intro hesc
    subst hesc
    decide

/-- C7 amended at the bytes `a` and ESC. -/
theorem single_byte_decoded_witness :
    (97 : Byte) ≠ 3 ∧ (97 : Byte) ≠ 27 ∧
    readStep ⟨[97], false⟩ = ⟨[.KeyMsg 97], true⟩ ∧
    (27 : Byte) ≠ 3 ∧ readStep ⟨[27], false⟩ = ⟨[], true⟩ :=
  ⟨by decide, by decide, (single_byte_decoded 97 (by decide)).1 (by decide),
   by decide, (single_byte_decoded 27 (by decide)).2 rfl⟩

/-- C8 fails twice: the two-byte chunk `0x03 'A'` makes the decoder send
`QuitMsg` and return, and the four-byte chunk `ESC '[' 'A' 'x'`, which is not the
three-byte sequence, makes it send the up-arrow `KeyMsg`. -/
theorem multi_byte_chunk_not_dropped :
    readStep ⟨[3, 65], false⟩ = ⟨[.QuitMsg], false⟩ ∧
    ReadInput [⟨[3, 65], false⟩, ⟨[97], false⟩] = ([.QuitMsg], true) ∧
    readStep ⟨[27, 91, 65, 120], false⟩ = ⟨[.KeyMsg 8593], true⟩ := by
  decide

/-- C8 amended: a chunk of two or more bytes whose first byte is not `0x03` and
which does not begin with `ESC`, `[` and one of `A`, `B`, `C`, `D` makes the
decoder send no message and go on reading. -/
theorem multi_byte_chunk_dropped (data : List Byte) (hlen : 2 ≤ data.length)
    (hquit : data.head? ≠ some 3)
    (hcsi : ∀ b2 rest, data = 27 :: 91 :: b2 :: rest → b2 ≠ 65 ∧ b2 ≠ 66 ∧ b2 ≠ 67 ∧ b2 ≠ 68) :
    readStep ⟨data, false⟩ = ⟨[], true⟩ := by
  match data, hlen, hquit, hcsi with
  | [b0, b1], _, hquit, _ =>
    have h0 : b0 ≠ 3 := fun h => hquit (by simp [h])
    by_cases hesc : b0 = 27 <;> simp [readStep, decodeChunk, decodeFirst, h0, hesc]
  | b0 :: b1 :: b2 :: rest, _, hquit, hcsi =>
    have h0 : b0 ≠ 3 := fun h => hquit (by simp [h])
    by_cases hseq : b0 = 27 ∧ b1 = 91
    · obtain ⟨rfl, rfl⟩ := hseq
      obtain ⟨hA, hB, hC, hD⟩ := hcsi b2 rest rfl
      simp [readStep, decodeChunk, decodeFirst, arrowKey, hA, hB, hC, hD]
    · simp [readStep, decodeChunk, decodeFirst, h0, hseq]

/-- C8 amended at the chunks `a b`, `ESC [`, `ESC [ Z` and `ESC O A`. -/
theorem multi_byte_chunk_dropped_witness :
    readStep ⟨[97, 98], false⟩ = ⟨[], true⟩ ∧
    readStep ⟨[27, 91], false⟩ = ⟨[], true⟩ ∧
    readStep ⟨[27, 91, 90], false⟩ = ⟨[], true⟩ ∧
    readStep ⟨[27, 79, 65], false⟩ = ⟨[], true⟩ :=
  ⟨multi_byte_chunk_dropped [97, 98] (by decide) (by decide) (by simp),
   multi_byte_chunk_dropped [27, 91] (by decide) (by decide) (by simp),
   multi_byte_chunk_dropped [27, 91, 90] (by decide) (by decide) (by
     intro b2 rest h
     simp only [List.cons.injEq, true_and] at h
     obtain ⟨rfl, _⟩ := h
     decide),
   multi_byte_chunk_dropped [27, 79, 65] (by decide) (by decide) (by
     intro b2 rest h
     simp only [List.cons.injEq, true_and] at h
     exact absurd h.1 (by decide))⟩

/-! ## Run -/

theorem updatesOf_append (xs ys : List Call) :
    updatesOf (xs ++ ys) = updatesOf xs ++ updatesOf ys := by
  induction xs with
  | nil => rfl
  | cons c xs ih => cases c <;> simp [updatesOf, ih]

theorem updatesOf_renderCalls {σ : Type} (ops : ModelOps σ) (p : Program σ) :
    updatesOf (renderCalls ops p) = [] := by
  unfold renderCalls
  split
  · split
    · split <;> rfl
    · rfl
  · rfl

theorem updatesOf_goCalls (c : Option Cmd) : updatesOf (goCalls c) = [] := by
  cases c <;> rfl

theorem receive_not_mem_renderCalls {σ : Type} (ops : ModelOps σ) (p : Program σ) (m : Msg) :
    Call.Receive m ∉ renderCalls ops p := by
  unfold renderCalls
  split
  · split
    · split <;> simp
    · simp
  · simp

theorem receive_not_mem_goCalls (c : Option Cmd) (m : Msg) : Call.Receive m ∉ goCalls c := by
  cases c <;> simp [goCalls]

theorem mainLoop_quit {σ : Type} (ops : ModelOps σ) (p : Program σ) (rest : List Msg)
    (hq : p.quit = false) :
    mainLoop ops p (Msg.QuitMsg :: rest) =
      (renderCalls ops p ++ [Call.Receive Msg.QuitMsg], { p with quit := true },
        Outcome.returned none) := by
  rw [mainLoop, if_neg (by simp [hq]), if_pos rfl]

theorem mainLoop_step {σ : Type} (ops : ModelOps σ) (p : Program σ) (m : Msg)
    (rest : List Msg) (hq : p.quit = false) (hm : m ≠ Msg.QuitMsg) :
    mainLoop ops p (m :: rest) =
      (renderCalls ops p ++ [Call.Receive m, Call.Update m] ++ goCalls (ops.Update p.Model m).2
          ++ (mainLoop ops { p with Model := (ops.Update p.Model m).1 } rest).1,
        (mainLoop ops { p with Model := (ops.Update p.Model m).1 } rest).2) := by
  rw [mainLoop, if_neg (by simp [hq]), if_neg hm]

theorem update_not_mem_renderCalls {σ : Type} (ops : ModelOps σ) (p : Program σ) (m : Msg) :
    Call.Update m ∉ renderCalls ops p := by
  unfold renderCalls
  split
  · split
    · split <;> simp
    · simp
  · simp

theorem update_not_mem_goCalls (c : Option Cmd) (m : Msg) : Call.Update m ∉ goCalls c := by
  cases c <;> simp [goCalls]

/-- C9: when the first `QuitMsg` the channel delivers comes after the messages
`pre`, the main loop of `Run` calls `Update` on exactly the messages of `pre`,
in arrival order, and never on the `QuitMsg`; receiving the `QuitMsg` is its last
call, so no `View` or `Write` follows; it returns the nil error with the quit
flag set, whatever the channel would have delivered afterwards. -/
theorem mainLoop_stops_at_first_quit {σ : Type} (ops : ModelOps σ) (p : Program σ)
    (pre post : List Msg) (hq : p.quit = false) (hpre : ∀ m ∈ pre, m ≠ Msg.QuitMsg) :
    updatesOf (mainLoop ops p (pre ++ Msg.QuitMsg :: post)).1 = pre ∧
    Call.Update Msg.QuitMsg ∉ (mainLoop ops p (pre ++ Msg.QuitMsg :: post)).1 ∧
    (∃ before, (mainLoop ops p (pre ++ Msg.QuitMsg :: post)).1
        = before ++ [Call.Receive Msg.QuitMsg] ∧
      Call.Receive Msg.QuitMsg ∉ before) ∧
    (mainLoop ops p (pre ++ Msg.QuitMsg :: post)).2.2 = Outcome.returned none ∧
    (mainLoop ops p (pre ++ Msg.QuitMsg :: post)).2.1.quit = true ∧
    mainLoop ops p (pre ++ Msg.QuitMsg :: post) = mainLoop ops p (pre ++ [Msg.QuitMsg]) := by
  induction pre generalizing p with
  | nil =>
    rw [List.nil_append, List.nil_append, mainLoop_quit ops p post hq,
      mainLoop_quit ops p [] hq]
    refine ⟨?_, ?_, ⟨renderCalls ops p, rfl, receive_not_mem_renderCalls ops p _⟩, rfl, rfl, rfl⟩
    · show updatesOf (renderCalls ops p ++ [Call.Receive Msg.QuitMsg]) = []
      rw [updatesOf_append, updatesOf_renderCalls]; rfl
    · show Call.Update Msg.QuitMsg ∉ renderCalls ops p ++ [Call.Receive Msg.QuitMsg]
      simp only [List.mem_append, List.mem_singleton, not_or]
      exact ⟨update_not_mem_renderCalls ops p _, fun h => by cases h⟩
  | cons m pre ih =>
    have hm : m ≠ Msg.QuitMsg := hpre m (List.mem_cons_self _ _)
    have hrest : ∀ m' ∈ pre, m' ≠ Msg.QuitMsg := fun m' h => hpre m' (List.mem_cons_of_mem _ h)
    obtain ⟨h1, h2, ⟨before, h3, h3'⟩, h4, h5, h6⟩ :=
      ih { p with Model := (ops.Update p.Model m).1 } hq hrest
    rw [List.cons_append, List.cons_append, mainLoop_step ops p m _ hq hm,
      mainLoop_step ops p m _ hq hm]
    refine ⟨?_, ?_, ⟨renderCalls ops p ++ [Call.Receive m, Call.Update m]
      ++ goCalls (ops.Update p.Model m).2 ++ before, ?_, ?_⟩, h4, h5, ?_⟩
    · simp only []
      rw [updatesOf_append, updatesOf_append, updatesOf_append, updatesOf_renderCalls,
        updatesOf_goCalls, h1]
      rfl
    · simp only [List.mem_append, List.mem_cons, List.mem_singleton, not_or]
      refine ⟨⟨⟨update_not_mem_renderCalls ops p _, ?_⟩, update_not_mem_goCalls _ _⟩, h2⟩
      refine ⟨?_, ?_, ?_⟩
      · intro h; cases h
      · intro h; injection h with h; exact hm h.symm
      · exact List.not_mem_nil _
    · simp only []
      rw [h3]; simp
    · simp only [List.mem_append, List.mem_cons, List.mem_singleton, not_or]
      refine ⟨⟨⟨receive_not_mem_renderCalls ops p _, ?_⟩, receive_not_mem_goCalls _ _⟩, h3'⟩
      refine ⟨?_, ?_, ?_⟩
      · intro h; injection h with h; exact hm h.symm
      · intro h; cases h
      · exact List.not_mem_nil _
    · rw [h6]

/-- C9 for the counting model on the keys `a`, `q`, then `QuitMsg`, then `b`. -/
theorem mainLoop_stops_at_first_quit_witness :
    (NewProgram (0 : Nat) []).quit = false ∧
    (∀ m ∈ [Msg.KeyMsg 97, Msg.KeyMsg 113], m ≠ Msg.QuitMsg) ∧
    updatesOf (mainLoop counterOps (NewProgram (0 : Nat) [])
      ([Msg.KeyMsg 97, Msg.KeyMsg 113] ++ Msg.QuitMsg :: [Msg.KeyMsg 98])).1
      = [Msg.KeyMsg 97, Msg.KeyMsg 113] ∧
    (mainLoop counterOps (NewProgram (0 : Nat) [])
      ([Msg.KeyMsg 97, Msg.KeyMsg 113] ++ Msg.QuitMsg :: [Msg.KeyMsg 98])).2.2
      = Outcome.returned none :=
  ⟨rfl, by decide,
   (mainLoop_stops_at_first_quit counterOps (NewProgram (0 : Nat) [])
     [Msg.KeyMsg 97, Msg.KeyMsg 113] [Msg.KeyMsg 98] rfl (by decide)).1,
   (mainLoop_stops_at_first_quit counterOps (NewProgram (0 : Nat) [])
     [Msg.KeyMsg 97, Msg.KeyMsg 113] [Msg.KeyMsg 98] rfl (by decide)).2.2.2.1⟩

namespace StandardRenderer

/-! ## Alt-screen switches and the diff memory -/

/-- A flush of a non-empty pending buffer that differs from the last flushed
frame is not skipped: it writes one frame to the stream, records the buffer as
the last flushed frame and empties it. -/
theorem flush_not_skipped (a : Ansi) (r : StandardRenderer) (h0 : r.buf ≠ "")
    (h1 : r.buf ≠ r.lastRender) :
    ∃ frame, (flush a r).out = r.out ++ [frame] ∧ (flush a r).lastRender = r.buf ∧
      (flush a r).buf = "" := by
  have hskip : ¬ (r.buf.length = 0 ∨ r.buf = r.lastRender) := by
    rintro (h | h)
    · exact h0 (string_length_eq_zero _ h)
    · exact h1 h
  unfold flush
  rw [if_neg hskip]
  exact ⟨_, rfl, rfl, rfl⟩

/-- After `Repaint` the flush of any written frame is not skipped. -/
theorem flush_after_cleared (a : Ansi) (r : StandardRenderer) (h : r.lastRender = "")
    (s : String) :
    ∃ frame, (flush a (r.Write s)).out = r.out ++ [frame] ∧
      (flush a (r.Write s)).lastRender = (if s = "" then " " else s) := by
  have hb := Write_buf r s
  have hne := Write_buf_ne_empty r s
  have hl : (r.Write s).lastRender = "" := by rw [Write_eq]; exact h
  obtain ⟨frame, hout, hlast, _⟩ := flush_not_skipped a (r.Write s) hne (by rw [hl]; exact hne)
  refine ⟨frame, ?_, ?_⟩
  · rw [hout, Write_eq]
  · rw [hlast, hb]

theorem EnterAltScreen_switch_on (a : Ansi) (r : StandardRenderer)
    (h : r.altScreenActive = false) :
    (EnterAltScreen a r).altScreenActive = true ∧ (EnterAltScreen a r).altLinesRendered = 0 ∧
      (EnterAltScreen a r).lastRender = "" ∧ (EnterAltScreen a r).lastRenderedLines = [] := by
  unfold EnterAltScreen
  rw [if_neg (by simp [h])]
  simp only [Repaint, restoreCursor, execute]
  split <;> simp

theorem ExitAltScreen_switch_off (a : Ansi) (r : StandardRenderer)
    (h : r.altScreenActive = true) :
    (ExitAltScreen a r).altScreenActive = false ∧
      (ExitAltScreen a r).altLinesRendered = r.altLinesRendered ∧
      (ExitAltScreen a r).lastRender = "" ∧ (ExitAltScreen a r).lastRenderedLines = [] := by
  unfold ExitAltScreen
  rw [if_neg (by simp [h])]
  simp only [Repaint, restoreCursor, execute]
  split <;> simp

/-- C11 fails for `ExitAltScreen`: a renderer that has flushed a three-line
frame in alt-screen mode has the alt-screen line counter at 3, and the
`ExitAltScreen` that switches the mode off leaves it at 3. -/
theorem ExitAltScreen_keeps_alt_counter :
    (flush vt100 ((EnterAltScreen vt100 (NewRenderer [])).Write "a\nb\nc")).altScreenActive = true ∧
    (flush vt100 ((EnterAltScreen vt100 (NewRenderer [])).Write "a\nb\nc")).altLinesRendered = 3 ∧
    (ExitAltScreen vt100
      (flush vt100 ((EnterAltScreen vt100 (NewRenderer [])).Write "a\nb\nc"))).altScreenActive
        = false ∧
    (ExitAltScreen vt100
      (flush vt100 ((EnterAltScreen vt100 (NewRenderer [])).Write "a\nb\nc"))).altLinesRendered
        = 3 := by
  decide

/-- C11 amended: an `EnterAltScreen` that switches the mode on leaves the
alt-screen line counter at 0 and the diff memory empty; an `ExitAltScreen` that
switches the mode off leaves the diff memory empty and the alt-screen line
counter as it was; after either, the next flush of any written frame is not
skipped: it writes one frame to the stream. -/
theorem AltScreen_switch_clears_diff_memory (a : Ansi) (r : StandardRenderer) :
    (r.altScreenActive = false →
      (EnterAltScreen a r).altScreenActive = true ∧
      (EnterAltScreen a r).altLinesRendered = 0 ∧
      (EnterAltScreen a r).lastRender = "" ∧
      (EnterAltScreen a r).lastRenderedLines = [] ∧
      ∀ s, ∃ frame,
        (flush a ((EnterAltScreen a r).Write s)).out = (EnterAltScreen a r).out ++ [frame] ∧
        (flush a ((EnterAltScreen a r).Write s)).lastRender = (if s = "" then " " else s)) ∧
    (r.altScreenActive = true →
      (ExitAltScreen a r).altScreenActive = false ∧
      (ExitAltScreen a r).altLinesRendered = r.altLinesRendered ∧
      (ExitAltScreen a r).lastRender = "" ∧
      (ExitAltScreen a r).lastRenderedLines = [] ∧
      ∀ s, ∃ frame,
        (flush a ((ExitAltScreen a r).Write s)).out = (ExitAltScreen a r).out ++ [frame] ∧
        (flush a ((ExitAltScreen a r).Write s)).lastRender = (if s = "" then " " else s)) := by
  constructor
  · intro h
    obtain ⟨h1, h2, h3, h4⟩ := EnterAltScreen_switch_on a r h
    exact ⟨h1, h2, h3, h4, fun s => flush_after_cleared a _ h3 s⟩
  · intro h
    obtain ⟨h1, h2, h3, h4⟩ := ExitAltScreen_switch_off a r h
    exact ⟨h1, h2, h3, h4, fun s => flush_after_cleared a _ h3 s⟩

/-- C11 amended at a fresh renderer, switched on, and at the renderer that has
flushed three lines in alt-screen mode, switched off. -/
theorem AltScreen_switch_clears_diff_memory_witness :
    (NewRenderer []).altScreenActive = false ∧
    (EnterAltScreen vt100 (NewRenderer [])).altLinesRendered = 0 ∧
    (EnterAltScreen vt100 (NewRenderer [])).lastRender = "" ∧
    (flush vt100 ((EnterAltScreen vt100 (NewRenderer [])).Write "a\nb\nc")).altScreenActive = true ∧
    (ExitAltScreen vt100
      (flush vt100 ((EnterAltScreen vt100 (NewRenderer [])).Write "a\nb\nc"))).lastRender = "" :=
  ⟨rfl,
   ((AltScreen_switch_clears_diff_memory vt100 (NewRenderer [])).1 rfl).2.1,
   ((AltScreen_switch_clears_diff_memory vt100 (NewRenderer [])).1 rfl).2.2.1,
   by decide,
   ((AltScreen_switch_clears_diff_memory vt100
      (flush vt100 ((EnterAltScreen vt100 (NewRenderer [])).Write "a\nb\nc"))).2
        (by decide)).2.2.1⟩

/-! ## Line skipping in flush -/

/-- C14: a fresh renderer, outside alt-screen mode with no queued message lines
and no ignored lines, flushes the frame `ab`, `cd` and then the frame `ab`, `xx`,
whose first line is unchanged; the second flush writes the text `ab` again,
followed by the erase-right sequence and the line separator, where only the
separator was due. -/
theorem flush_reemits_unchanged_line :
    (flush vt100 ((NewRenderer []).Write "ab\ncd")).altScreenActive = false ∧
    (flush vt100 ((NewRenderer []).Write "ab\ncd")).queuedMessageLines = [] ∧
    (flush vt100 ((NewRenderer []).Write "ab\ncd")).ignoreLines = [] ∧
    (flush vt100 ((NewRenderer []).Write "ab\ncd")).lastRenderedLines = ["ab", "cd"] ∧
    splitLines "ab\nxx" = ["ab", "xx"] ∧
    (flush vt100 ((flush vt100 ((NewRenderer []).Write "ab\ncd")).Write "ab\nxx")).out
      = ["\x1b[A\rab\x1b[K\r\ncd\x1b[K\r", "ab\x1b[K\r\nxx\x1b[K\r"] := by
  decide

end StandardRenderer

/-! ## Composite: when it completes -/

theorem index_ok_bounds {α : Type} (xs : List α) (i : Int) (a : α)
    (h : index xs i = .ok a) : 0 ≤ i ∧ i.toNat < xs.length := by
  unfold index at h
  by_cases hi : i < 0
  · rw [if_pos hi] at h; cases h
  · rw [if_neg hi] at h
    refine ⟨by omega, ?_⟩
    by_contra hlen
    rw [List.getElem?_eq_none (by omega)] at h
    cases h

theorem index_error {α : Type} (xs : List α) (i : Int) (e : GoPanic)
    (h : index xs i = .error e) : e = .indexOutOfRange := by
  unfold index at h
  by_cases hi : i < 0
  · rw [if_pos hi] at h; cases h; rfl
  · rw [if_neg hi] at h
    cases hget : xs[i.toNat]? with
    | none => rw [hget] at h; cases h; rfl
    | some a => rw [hget] at h; cases h

theorem setIndex_ok_bounds {α : Type} (xs ys : List α) (i : Int) (a : α)
    (h : setIndex xs i a = .ok ys) : 0 ≤ i ∧ i.toNat < xs.length := by
  unfold setIndex at h
  by_cases hi : i < 0
  · rw [if_pos hi] at h; cases h
  · rw [if_neg hi] at h
    by_cases hlen : i.toNat < xs.length
    · exact ⟨by omega, hlen⟩
    · rw [if_neg hlen] at h; cases h

theorem setIndex_error {α : Type} (xs : List α) (i : Int) (a : α) (e : GoPanic)
    (h : setIndex xs i a = .error e) : e = .indexOutOfRange := by
  unfold setIndex at h
  by_cases hi : i < 0
  · rw [if_pos hi] at h; cases h; rfl
  · rw [if_neg hi] at h
    by_cases hlen : i.toNat < xs.length
    · rw [if_pos hlen] at h; cases h
    · rw [if_neg hlen] at h; cases h; rfl

/-- An assignment `Data[y][x] = p` that does not panic is within the bounds of a
well-formed buffer. -/
theorem setCell_ok_bounds (s s' : PixelBuffer) (hwf : WellFormed s) (x y : Int) (p : Pixel)
    (h : setCell s y x p = .ok s') : 0 ≤ x ∧ x < s.Width ∧ 0 ≤ y ∧ y < s.Height := by
  unfold setCell at h
  cases hrow : index s.Data y with
  | error e => rw [hrow] at h; cases h
  | ok row =>
    rw [hrow] at h
    simp only [bind, Except.bind] at h
    cases hset : setIndex row x p with
    | error e => rw [hset] at h; cases h
    | ok row' =>
      obtain ⟨hy0, hy1⟩ := index_ok_bounds _ _ _ hrow
      obtain ⟨hx0, hx1⟩ := setIndex_ok_bounds _ _ _ _ hset
      have hrowmem : row ∈ s.Data := by
        have hr := index_eq_ok s.Data y hy0 hy1
        rw [hrow] at hr
        injection hr with hr
        rw [hr]
        exact List.getElem_mem _
      have hlen := hwf.2 row hrowmem
      have hH := hwf.1
      omega

theorem setCell_error (s : PixelBuffer) (x y : Int) (p : Pixel) (e : GoPanic)
    (h : setCell s y x p = .error e) : e = .indexOutOfRange := by
  unfold setCell at h
  cases hrow : index s.Data y with
  | error e' =>
    rw [hrow] at h
    have := index_error _ _ _ hrow
    cases h; exact this
  | ok row =>
    rw [hrow] at h
    simp only [bind, Except.bind] at h
    cases hset : setIndex row x p with
    | error e' =>
      rw [hset] at h
      have := setIndex_error _ _ _ _ hset
      cases h; exact this
    | ok row' =>
      rw [hset] at h
      simp only at h
      cases hset2 : setIndex s.Data y row' with
      | error e' =>
        rw [hset2] at h
        have := setIndex_error _ _ _ _ hset2
        cases h; exact this
      | ok data => rw [hset2] at h; cases h

theorem getCell_error (s : PixelBuffer) (x y : Int) (e : GoPanic)
    (h : getCell s y x = .error e) : e = .indexOutOfRange := by
  unfold getCell at h
  cases hrow : index s.Data y with
  | error e' =>
    rw [hrow] at h
    have := index_error _ _ _ hrow
    cases h; exact this
  | ok row =>
    rw [hrow] at h
    exact index_error _ _ _ h

/-- A loop that ends normally has run every iteration normally, each from a
state that satisfies what the iterations preserve. -/
theorem foldlM_ok_steps {σ ι ε : Type} (f : σ → ι → Except ε σ) (Inv : σ → Prop)
    (hpres : ∀ s i s', Inv s → f s i = .ok s' → Inv s') (l : List ι) (s s' : σ)
    (h0 : Inv s) (hok : l.foldlM f s = .ok s') :
    Inv s' ∧ ∀ i ∈ l, ∃ t t', Inv t ∧ f t i = .ok t' := by
  induction l generalizing s with
  | nil =>
    have : s = s' := by
      have h : (Except.ok s : Except ε σ) = .ok s' := hok
      injection h
    subst this
    exact ⟨h0, by simp⟩
  | cons i l ih =>
    rw [List.foldlM_cons] at hok
    cases hf : f s i with
    | error e => rw [hf] at hok; cases hok
    | ok s1 =>
      rw [hf] at hok
      obtain ⟨hInv, hsteps⟩ := ih s1 (hpres s i s1 h0 hf) hok
      refine ⟨hInv, ?_⟩
      intro j hj
      rcases List.mem_cons.1 hj with rfl | hj
      · exact ⟨s, s1, h0, hf⟩
      · exact hsteps j hj

/-- A loop that panics panics as one of its iterations does. -/
theorem foldlM_error_kind {σ ι ε : Type} (f : σ → ι → Except ε σ) (P : ε → Prop)
    (hstep : ∀ s i e, f s i = .error e → P e) (l : List ι) (s : σ) (e : ε)
    (herr : l.foldlM f s = .error e) : P e := by
  induction l generalizing s with
  | nil => cases herr
  | cons i l ih =>
    rw [List.foldlM_cons] at herr
    cases hf : f s i with
    | error e' =>
      rw [hf] at herr
      have := hstep s i e' hf
      cases herr; exact this
    | ok s1 =>
      rw [hf] at herr
      exact ih s1 herr

/-- A cell step of `Composite` that ends normally keeps the shape of the result,
and has written inside it when the layer has `Alpha > 0.5`. -/
theorem compositeCell_ok_inv (l : Layer) (s s' : PixelBuffer) (x y : Int)
    (hwf : WellFormed s) (h : compositeCell l s y x = .ok s') :
    s'.Width = s.Width ∧ s'.Height = s.Height ∧ WellFormed s' ∧
      (l.Alpha.gtHalf = true → x < s.Width ∧ y < s.Height) := by
  unfold compositeCell at h
  cases hget : getCell l.Buffer y x with
  | error e => rw [hget] at h; cases h
  | ok c =>
    rw [hget] at h
    simp only [bind, Except.bind] at h
    by_cases hv : l.Alpha.gtHalf = true
    · rw [if_pos hv] at h
      obtain ⟨hx0, hx1, hy0, hy1⟩ := setCell_ok_bounds s s' hwf x y c h
      obtain ⟨t, hok, hW, hH, hwf', _⟩ := setCell_ok s hwf x y c hx0 hx1 hy0 hy1
      rw [h] at hok
      injection hok with hok
      subst hok
      exact ⟨hW, hH, hwf', fun _ => ⟨hx1, hy1⟩⟩
    · rw [if_neg hv] at h
      have : s = s' := by
        have h' : (Except.ok s : Except GoPanic PixelBuffer) = .ok s' := h
        injection h'
      subst this
      exact ⟨rfl, rfl, hwf, fun hv' => absurd hv' hv⟩

theorem compositeCell_error (l : Layer) (s : PixelBuffer) (x y : Int) (e : GoPanic)
    (h : compositeCell l s y x = .error e) : e = .indexOutOfRange := by
  unfold compositeCell at h
  cases hget : getCell l.Buffer y x with
  | error e' =>
    rw [hget] at h
    have := getCell_error _ _ _ _ hget
    cases h; exact this
  | ok c =>
    rw [hget] at h
    simp only [bind, Except.bind] at h
    by_cases hv : l.Alpha.gtHalf = true
    · rw [if_pos hv] at h
      exact setCell_error _ _ _ _ _ h
    · rw [if_neg hv] at h; cases h

/-- The loops of `Composite` over a layer, when they end normally, keep the
shape of the result; a layer with `Alpha > 0.5` then has no cell outside it. -/
theorem compositeLayer_ok_inv (W H : Int) (l : Layer) (s s' : PixelBuffer)
    (hs : s.Width = W ∧ s.Height = H ∧ WellFormed s) (h : compositeLayer s l = .ok s') :
    (s'.Width = W ∧ s'.Height = H ∧ WellFormed s') ∧
      (l.Alpha.gtHalf = true → ∀ x y, 0 ≤ x → x < l.Buffer.Width → 0 ≤ y →
        y < l.Buffer.Height → x < W ∧ y < H) := by
  have hcellpres : ∀ (y : Int) (t : PixelBuffer) (x : Int) (t' : PixelBuffer),
      (t.Width = W ∧ t.Height = H ∧ WellFormed t) → compositeCell l t y x = .ok t' →
      (t'.Width = W ∧ t'.Height = H ∧ WellFormed t') := by
    intro y t x t' ⟨hW, hH, hwf⟩ hok
    obtain ⟨h1, h2, h3, _⟩ := compositeCell_ok_inv l t t' x y hwf hok
    exact ⟨by omega, by omega, h3⟩
  have hrowpres : ∀ (t : PixelBuffer) (y : Int) (t' : PixelBuffer),
      (t.Width = W ∧ t.Height = H ∧ WellFormed t) →
      (intRange 0 l.Buffer.Width).foldlM (fun r x => compositeCell l r y x) t = .ok t' →
      (t'.Width = W ∧ t'.Height = H ∧ WellFormed t') := by
    intro t y t' ht hok
    exact (foldlM_ok_steps (fun r x => compositeCell l r y x) _
      (fun r x r' => hcellpres y r x r') _ t t' ht hok).1
  obtain ⟨hInv, hrows⟩ := foldlM_ok_steps
    (fun r y => (intRange 0 l.Buffer.Width).foldlM (fun r x => compositeCell l r y x) r)
    (fun t => t.Width = W ∧ t.Height = H ∧ WellFormed t) hrowpres _ s s' hs h
  refine ⟨hInv, ?_⟩
  intro hv x y hx0 hx1 hy0 hy1
  obtain ⟨t, t', ht, hrow⟩ := hrows y (by rw [mem_intRange]; omega)
  obtain ⟨_, hcols⟩ := foldlM_ok_steps (fun r x => compositeCell l r y x) _
    (fun r x r' => hcellpres y r x r') _ t t' ht hrow
  obtain ⟨u, u', ⟨huW, huH, huwf⟩, hcell⟩ := hcols x (by rw [mem_intRange]; omega)
  obtain ⟨_, _, _, hb⟩ := compositeCell_ok_inv l u u' x y huwf hcell
  have := hb hv
  omega

theorem compositeLayer_error (l : Layer) (s : PixelBuffer) (e : GoPanic)
    (h : compositeLayer s l = .error e) : e = .indexOutOfRange := by
  refine foldlM_error_kind _ (fun e => e = .indexOutOfRange) ?_ _ s e h
  intro t y e' herr
  exact foldlM_error_kind _ (fun e => e = .indexOutOfRange)
    (fun r x e'' h' => compositeCell_error l r x y e'' h') _ t e' herr

/-- The loops of `Composite` over a well-formed layer end normally when the
layer has `Alpha <= 0.5` or lies inside the result. -/
theorem compositeLayer_fits (W H : Int) (l : Layer) (hl : WellFormed l.Buffer)
    (hfit : l.Alpha.gtHalf = true → l.Buffer.Width ≤ W ∧ l.Buffer.Height ≤ H)
    (s : PixelBuffer) (hs : s.Width = W ∧ s.Height = H ∧ WellFormed s) :
    ∃ s', compositeLayer s l = .ok s' ∧ s'.Width = W ∧ s'.Height = H ∧ WellFormed s' := by
  have key := foldlM_invariant
    (fun r y => (intRange 0 l.Buffer.Width).foldlM (fun r x => compositeCell l r y x) r)
    (fun _ t => t.Width = W ∧ t.Height = H ∧ WellFormed t)
    (intRange 0 l.Buffer.Height) ?_ [] s hs
  · exact key
  · intro pre y t hy ht
    rw [mem_intRange] at hy
    refine foldlM_invariant (fun r x => compositeCell l r y x)
      (fun _ t => t.Width = W ∧ t.Height = H ∧ WellFormed t)
      (intRange 0 l.Buffer.Width) ?_ [] t ht
    intro pre' x u hx ⟨huW, huH, huwf⟩
    rw [mem_intRange] at hx
    obtain ⟨c, hget, _⟩ := getCell_ok l.Buffer hl x y (by omega) (by omega) (by omega) (by omega)
    beta_reduce
    unfold compositeCell
    rw [hget]
    simp only [bind, Except.bind]
    by_cases hv : l.Alpha.gtHalf = true
    · rw [if_pos hv]
      obtain ⟨hfW, hfH⟩ := hfit hv
      obtain ⟨u', hok, hW', hH', hwf', _⟩ :=
        setCell_ok u huwf x y c (by omega) (by omega) (by omega) (by omega)
      exact ⟨u', hok, by omega, by omega, hwf'⟩
    · rw [if_neg hv]
      exact ⟨u, rfl, huW, huH, huwf⟩

/-- What `Composite` does on a non-empty list of layers whose first buffer is
well formed: the loops over the layers, run on a fresh zero buffer of the size
of the first layer. -/
theorem Composite_cons (l0 : Layer) (rest : List Layer) (hwf0 : WellFormed l0.Buffer) :
    ∃ r0, r0.Width = l0.Buffer.Width ∧ r0.Height = l0.Buffer.Height ∧ WellFormed r0 ∧
      Compositor.Composite { Layers := l0 :: rest } = (l0 :: rest).foldlM compositeLayer r0 := by
  have hHnn : 0 ≤ l0.Buffer.Height := by
    have := hwf0.1; omega
  have hWnn : 0 < l0.Buffer.Height → 0 ≤ l0.Buffer.Width := by
    intro hpos
    have hlen : 0 < l0.Buffer.Data.length := by
      have := hwf0.1; omega
    have := hwf0.2 (l0.Buffer.Data[0]) (List.getElem_mem _)
    omega
  obtain ⟨r0, hnew, hrW, hrH, hrwf, _⟩ := NewPixelBuffer_ok _ _ hHnn hWnn
  refine ⟨r0, hrW, hrH, hrwf, ?_⟩
  unfold Compositor.Composite
  have hidx : index (l0 :: rest) 0 = .ok l0 :=
    index_eq_ok (l0 :: rest) 0 (le_refl 0) (by simp)
  simp only [hidx, bind, Except.bind, hnew]

/-- C15: `Composite` panics with an index out of range when the compositor holds
no layers, and when the first buffer is well formed and some layer with
`Alpha > 0.5` has a cell at a coordinate outside the first layer's width and
height; on a non-empty list of well-formed layers in which every layer with
`Alpha > 0.5` is no wider and no taller than the first, it returns normally a
buffer with the width and height of the first layer. -/
theorem Composite_completes_when_layers_fit :
    Compositor.Composite { Layers := [] } = .error .indexOutOfRange ∧
    (∀ (l0 : Layer) (rest : List Layer), WellFormed l0.Buffer →
      (∃ l ∈ l0 :: rest, l.Alpha.gtHalf = true ∧
        ∃ x y, 0 ≤ x ∧ x < l.Buffer.Width ∧ 0 ≤ y ∧ y < l.Buffer.Height ∧
          (l0.Buffer.Width ≤ x ∨ l0.Buffer.Height ≤ y)) →
      Compositor.Composite { Layers := l0 :: rest } = .error .indexOutOfRange) ∧
    (∀ (l0 : Layer) (rest : List Layer), (∀ l ∈ l0 :: rest, WellFormed l.Buffer) →
      (∀ l ∈ l0 :: rest, l.Alpha.gtHalf = true →
        l.Buffer.Width ≤ l0.Buffer.Width ∧ l.Buffer.Height ≤ l0.Buffer.Height) →
      ∃ res, Compositor.Composite { Layers := l0 :: rest } = .ok res ∧
        res.Width = l0.Buffer.Width ∧ res.Height = l0.Buffer.Height) := by
  refine ⟨rfl, ?_, ?_⟩
  · rintro l0 rest hwf0 ⟨l, hl, hv, x, y, hx0, hx1, hy0, hy1, hout⟩
    obtain ⟨r0, hrW, hrH, hrwf, hcomp⟩ := Composite_cons l0 rest hwf0
    rw [hcomp]
    cases hfold : (l0 :: rest).foldlM compositeLayer r0 with
    | error e =>
      rw [foldlM_error_kind compositeLayer (fun e => e = .indexOutOfRange)
        (fun s l e h => compositeLayer_error l s e h) _ r0 e hfold]
    | ok res =>
      exfalso
      obtain ⟨_, hsteps⟩ := foldlM_ok_steps compositeLayer
        (fun t => t.Width = l0.Buffer.Width ∧ t.Height = l0.Buffer.Height ∧ WellFormed t)
        (fun s l s' hs hok => (compositeLayer_ok_inv _ _ l s s' hs hok).1)
        _ r0 res ⟨hrW, hrH, hrwf⟩ hfold
      obtain ⟨t, t', ht, hok⟩ := hsteps l hl
      have := (compositeLayer_ok_inv _ _ l t t' ht hok).2 hv x y hx0 hx1 hy0 hy1
      omega
  · intro l0 rest hwf hfit
    obtain ⟨r0, hrW, hrH, hrwf, hcomp⟩ :=
      Composite_cons l0 rest (hwf l0 (List.mem_cons_self _ _))
    rw [hcomp]
    have key := foldlM_invariant compositeLayer
      (fun _ t => t.Width = l0.Buffer.Width ∧ t.Height = l0.Buffer.Height ∧ WellFormed t)
      (l0 :: rest) ?_ [] r0 ⟨hrW, hrH, hrwf⟩
    · obtain ⟨res, hok, hW, hH, _⟩ := key
      exact ⟨res, hok, hW, hH⟩
    · intro pre l s hl hs
      exact compositeLayer_fits _ _ l (hwf l hl) (hfit l hl) s hs

/-- C15 on 1x1 and 2x1 layers: no layers and a wider layer at 0.6 above a 1x1
layer panic; a wider layer at 0.5 above a 1x1 layer gives a 1x1 buffer. -/
theorem Composite_completes_when_layers_fit_witness :
    WellFormed (layerA .sixTenths).Buffer ∧
    Compositor.Composite { Layers := [layerA .sixTenths, layerWide .sixTenths] }
      = .error .indexOutOfRange ∧
    (∃ res, Compositor.Composite { Layers := [layerA .sixTenths, layerWide .half] } = .ok res ∧
      res.Width = 1 ∧ res.Height = 1) ∧
    Compositor.Composite { Layers := [layerA .sixTenths, layerWide .half] }
      = .ok { Width := 1, Height := 1, Data := [[pixelA]] } :=
  ⟨by decide,
   Composite_completes_when_layers_fit.2.1 (layerA .sixTenths) [layerWide .sixTenths]
     (by decide) ⟨layerWide .sixTenths, by decide, by decide, 1, 0, by decide⟩,
   Composite_completes_when_layers_fit.2.2 (layerA .sixTenths) [layerWide .half]
     (by decide) (by decide),
   by decide⟩

/-! ## RenderToTerminal -/

set_option maxRecDepth 100000 in
/-- The decimal form of a `uint8` holds no escape character. -/
theorem uint8_digits_no_escape :
    ∀ n < 256, ∀ c ∈ (toString n).data, c ≠ Char.ofNat 27 := by
  decide

theorem join_append_singleton (l : List String) (a : String) :
    String.join (l ++ [a]) = String.join l ++ a := by
  apply String.ext
  simp [String.data_join, String.data_append]

theorem map_getD_intRange {α : Type} (l : List α) (n : Int) (d : α)
    (hn : (l.length : Int) = n) :
    (intRange 0 n).map (fun i => l.getD i.toNat d) = l := by
  unfold intRange
  have hlen : (n - 0).toNat = l.length := by omega
  rw [hlen, List.map_map]
  apply List.ext_getElem
  · simp
  · intro i h1 h2
    simp [List.getD_eq_getElem?_getD, h2]

theorem renderPixel_eq (output : String) (p : Pixel) :
    renderPixel output p = output ++ cellText p := by
  have hm : ("m\x1b[48;5;" : String) = "m" ++ "\x1b[48;5;" := by decide
  unfold renderPixel cellText colorSequence
  rw [hm]
  simp only [String.append_assoc]

/-- The inner loop of `RenderToTerminal` on row `y` appends the cells of the row
from left to right. -/
theorem render_row (pb : PixelBuffer) (hwf : WellFormed pb) (y : Int) (hy0 : 0 ≤ y)
    (hy1 : y < pb.Height) (output : String) :
    (intRange 0 pb.Width).foldlM
        (fun output x => do
          let pixel ← getCell pb y x
          pure (renderPixel output pixel))
        output
      = .ok (output ++ String.join ((pb.Data.getD y.toNat []).map cellText)) := by
  have hylen : y.toNat < pb.Data.length := by have := hwf.1; omega
  have hrowlen : (((pb.Data.getD y.toNat [])).length : Int) = pb.Width := by
    rw [List.getD_eq_getElem _ _ hylen]
    exact hwf.2 _ (List.getElem_mem _)
  have key := foldlM_invariant
    (fun output x => do
      let pixel ← getCell pb y x
      pure (renderPixel output pixel))
    (fun pre o => o = output ++ String.join
      ((pre.map (fun i => (pb.Data.getD y.toNat []).getD i.toNat Pixel.zero)).map cellText))
    (intRange 0 pb.Width) ?_ [] output (by simp [String.join])
  · obtain ⟨o, hok, ho⟩ := key
    rw [hok, ho]
    simp only [List.nil_append]
    rw [map_getD_intRange _ _ _ hrowlen]
  · intro pre x o hx ho
    rw [mem_intRange] at hx
    have hxlen : x.toNat < (pb.Data.getD y.toNat []).length := by omega
    have hget : getCell pb y x = .ok ((pb.Data.getD y.toNat []).getD x.toNat Pixel.zero) := by
      unfold getCell
      rw [index_eq_ok _ _ hy0 hylen]
      simp only [bind, Except.bind]
      rw [List.getD_eq_getElem _ _ hylen] at hxlen ⊢
      rw [index_eq_ok _ _ hx.1 hxlen, List.getD_eq_getElem _ _ hxlen]
    refine ⟨_, by beta_reduce; rw [hget]; rfl, ?_⟩
    beta_reduce
    rw [renderPixel_eq, ho, List.map_append, List.map_append, List.map_singleton,
      List.map_singleton, join_append_singleton, String.append_assoc]

/-- `RenderToTerminal` on a well-formed buffer returns the text the
specification describes. -/
theorem RenderToTerminal_eq_frameText (pb : PixelBuffer) (hwf : WellFormed pb) :
    RenderToTerminal pb = .ok (frameText pb) := by
  have key := foldlM_invariant
    (fun output y => do
      let output ← (intRange 0 pb.Width).foldlM
        (fun output x => do
          let pixel ← getCell pb y x
          pure (renderPixel output pixel))
        output
      pure (output ++ "\n"))
    (fun pre o => o = String.join ((pre.map (fun i => pb.Data.getD i.toNat [])).map rowText))
    (intRange 0 pb.Height) ?_ [] "" (by simp [String.join])
  · obtain ⟨o, hok, ho⟩ := key
    unfold RenderToTerminal frameText
    rw [hok, ho]
    simp only [List.nil_append]
    rw [map_getD_intRange _ _ _ hwf.1]
  · intro pre y o hy ho
    rw [mem_intRange] at hy
    refine ⟨_, by beta_reduce; rw [render_row pb hwf y hy.1 hy.2 o]; rfl, ?_⟩
    beta_reduce
    rw [ho, List.map_append, List.map_append, List.map_singleton, List.map_singleton,
      join_append_singleton, rowText, String.append_assoc]

theorem occurrences_cons_ne (c : Char) (cs : List Char) (h : c ≠ Char.ofNat 27) :
    occurrences resetSequence (c :: cs) = occurrences resetSequence cs := by
  have hp : resetSequence.isPrefixOf (c :: cs) = false := by
    have hb : (Char.ofNat 27 == c) = false := by
      rw [beq_eq_false_iff_ne]; exact fun h' => h h'.symm
    show (Char.ofNat 27 == c && List.isPrefixOf ['[', '0', 'm'] cs) = false
    rw [hb]; rfl
  rw [occurrences, hp]
  simp

theorem occurrences_append_no_escape (l rest : List Char) (h : ∀ c ∈ l, c ≠ Char.ofNat 27) :
    occurrences resetSequence (l ++ rest) = occurrences resetSequence rest := by
  induction l with
  | nil => rfl
  | cons c l ih =>
    rw [List.cons_append, occurrences_cons_ne _ _ (h c (List.mem_cons_self _ _))]
    exact ih (fun d hd => h d (List.mem_cons_of_mem _ hd))

theorem occurrences_escape_no_match (t : List Char)
    (h : List.isPrefixOf ['[', '0', 'm'] t = false) :
    occurrences resetSequence (Char.ofNat 27 :: t) = occurrences resetSequence t := by
  have hp : resetSequence.isPrefixOf (Char.ofNat 27 :: t) = false := by
    show (Char.ofNat 27 == Char.ofNat 27 && List.isPrefixOf ['[', '0', 'm'] t) = false
    rw [h]; rfl
  rw [occurrences, hp]
  simp

theorem occurrences_reset (t : List Char) :
    occurrences resetSequence (resetSequence ++ t) = 1 + occurrences resetSequence t := by
  have hp : resetSequence.isPrefixOf (Char.ofNat 27 :: '[' :: '0' :: 'm' :: t) = true := by
    show (Char.ofNat 27 == Char.ofNat 27 && ('[' == '[' && ('0' == '0' && ('m' == 'm' &&
      List.isPrefixOf [] t)))) = true
    cases t <;> rfl
  show occurrences resetSequence (Char.ofNat 27 :: '[' :: '0' :: 'm' :: t) = _
  rw [occurrences, hp, if_pos rfl]
  have := occurrences_append_no_escape ['[', '0', 'm'] t (by decide)
  rw [show ('[' :: '0' :: 'm' :: t) = ['[', '0', 'm'] ++ t from rfl, this]

/-- One colour-set sequence holds no reset sequence. -/
theorem occurrences_colour (k : Char) (digits rest : List Char) (hk : k ≠ '0')
    (hk' : k ≠ Char.ofNat 27) (hd : ∀ c ∈ digits, c ≠ Char.ofNat 27) :
    occurrences resetSequence
        (Char.ofNat 27 :: '[' :: k :: '8' :: ';' :: '5' :: ';' :: (digits ++ 'm' :: rest))
      = occurrences resetSequence rest := by
  have hno : List.isPrefixOf ['[', '0', 'm']
      ('[' :: k :: '8' :: ';' :: '5' :: ';' :: (digits ++ 'm' :: rest)) = false := by
    have hb : ('0' == k) = false := by
      rw [beq_eq_false_iff_ne]; exact fun h' => hk h'.symm
    show ('[' == '[' && ('0' == k && _)) = false
    rw [hb]; rfl
  rw [occurrences_escape_no_match _ hno]
  rw [occurrences_cons_ne _ _ (by decide), occurrences_cons_ne _ _ hk',
    occurrences_cons_ne _ _ (by decide), occurrences_cons_ne _ _ (by decide),
    occurrences_cons_ne _ _ (by decide), occurrences_cons_ne _ _ (by decide),
    occurrences_append_no_escape _ _ hd, occurrences_cons_ne _ _ (by decide)]

theorem cellText_data (p : Pixel) :
    (cellText p).data =
      Char.ofNat 27 :: '[' :: '3' :: '8' :: ';' :: '5' :: ';' ::
        ((toString (uint8 p.FG)).data ++ 'm' ::
          Char.ofNat 27 :: '[' :: '4' :: '8' :: ';' :: '5' :: ';' ::
            ((toString (uint8 p.BG)).data ++ 'm' :: runeChar p.Char :: resetSequence)) := by
  unfold cellText
  simp only [String.data_append, List.append_assoc]
  rfl

theorem uint8_lt (c : Int) : uint8 c < 256 := by
  unfold uint8
  have := Int.emod_lt_of_pos c (show (0 : Int) < 256 by norm_num)
  have := Int.emod_nonneg c (show (256 : Int) ≠ 0 by norm_num)
  omega

/-- The text of one cell holds exactly one reset sequence, its last four
characters, whatever the cell's character is. -/
theorem occurrences_cellText (p : Pixel) (rest : List Char) :
    occurrences resetSequence ((cellText p).data ++ rest)
      = 1 + occurrences resetSequence rest := by
  rw [cellText_data]
  simp only [List.cons_append, List.append_assoc]
  rw [occurrences_colour _ _ _ (by decide) (by decide)
      (uint8_digits_no_escape _ (uint8_lt _)),
    occurrences_colour _ _ _ (by decide) (by decide)
      (uint8_digits_no_escape _ (uint8_lt _))]
  by_cases hc : runeChar p.Char = Char.ofNat 27
  · rw [hc, occurrences_escape_no_match (resetSequence ++ rest) rfl, occurrences_reset]
  · rw [occurrences_cons_ne _ _ hc, occurrences_reset]

theorem rowText_data (row : List Pixel) :
    (rowText row).data = (row.map (fun p => (cellText p).data)).flatten ++ [Char.ofNat 10] := by
  unfold rowText
  rw [String.data_append, String.data_join, List.map_map]
  rfl

theorem occurrences_rowText (row : List Pixel) (rest : List Char) :
    occurrences resetSequence ((rowText row).data ++ rest)
      = row.length + occurrences resetSequence rest := by
  rw [rowText_data]
  induction row with
  | nil =>
    simp only [List.map_nil, List.flatten_nil, List.nil_append, List.length_nil, Nat.zero_add]
    exact occurrences_cons_ne _ _ (by decide)
  | cons p row ih =>
    simp only [List.map_cons, List.flatten_cons, List.append_assoc, List.length_cons]
    rw [occurrences_cellText]
    simp only [List.append_assoc] at ih
    rw [ih]
    omega

theorem occurrences_rows (rows : List (List Pixel)) (rest : List Char) :
    occurrences resetSequence ((rows.map (fun r => (rowText r).data)).flatten ++ rest)
      = (rows.map List.length).sum + occurrences resetSequence rest := by
  induction rows with
  | nil => simp
  | cons r rows ih =>
    simp only [List.map_cons, List.flatten_cons, List.append_assoc, List.sum_cons]
    rw [occurrences_rowText, ih]
    omega

theorem sum_row_lengths (rows : List (List Pixel)) (W : Int)
    (h : ∀ row ∈ rows, (row.length : Int) = W) :
    (((rows.map List.length).sum : Nat) : Int) = W * rows.length := by
  induction rows with
  | nil => simp
  | cons r rows ih =>
    simp only [List.map_cons, List.sum_cons, List.length_cons]
    rw [Nat.cast_add, ih (fun row hr => h row (List.mem_cons_of_mem _ hr)),
      h r (List.mem_cons_self _ _)]
    push_cast
    ring

/-- C12: on a well-formed buffer `RenderToTerminal` returns the rows from top to
bottom, each the concatenation of its cells from left to right followed by one
newline, each cell being its own colour-set sequence with the colours in
decimal modulo 256, the cell's character and the reset sequence; the text holds
exactly `Width * Height` reset sequences. -/
theorem RenderToTerminal_per_cell (pb : PixelBuffer) (hwf : WellFormed pb) :
    RenderToTerminal pb = .ok (frameText pb) ∧
    frameText pb = String.join (pb.Data.map (fun row =>
      String.join (row.map (fun p =>
        "\x1b[38;5;" ++ toString (uint8 p.FG) ++ "m" ++ "\x1b[48;5;" ++ toString (uint8 p.BG)
          ++ "m" ++ String.singleton (runeChar p.Char) ++ "\x1b[0m")) ++ "\n")) ∧
    ((occurrences resetSequence (frameText pb).data : Nat) : Int) = pb.Width * pb.Height := by
  refine ⟨RenderToTerminal_eq_frameText pb hwf, rfl, ?_⟩
  have hdata : (frameText pb).data = (pb.Data.map (fun r => (rowText r).data)).flatten ++ [] := by
    unfold frameText
    rw [String.data_join, List.map_map, List.append_nil]
    rfl
  rw [hdata, occurrences_rows]
  simp only [occurrences, Nat.add_zero]
  rw [sum_row_lengths _ _ hwf.2, hwf.1]

/-- C12 on a 2x1 buffer whose two cells have the same colours: each cell has its
own colour-set and reset sequences. -/
theorem RenderToTerminal_per_cell_witness :
    WellFormed twinCells ∧
    RenderToTerminal twinCells = .ok (frameText twinCells) ∧
    frameText twinCells
      = "\x1b[38;5;1m\x1b[48;5;2mA\x1b[0m\x1b[38;5;1m\x1b[48;5;2mA\x1b[0m\n" ∧
    ((occurrences resetSequence (frameText twinCells).data : Nat) : Int) = 2 * 1 :=
  ⟨by decide, (RenderToTerminal_per_cell twinCells (by decide)).1, by decide,
   (RenderToTerminal_per_cell twinCells (by decide)).2.2⟩

/-! ## Catalog.Text -/

/-- A match of `ph` is a placeholder and a beginning of the text it is found
in. -/
theorem phMatch_some (s m : List Char) (h : phMatch s = some m) :
    IsPlaceholder m ∧ ∃ c m' rest, m = c :: m' ∧ s = c :: (m' ++ rest) := by
  cases s with
  | nil => cases h
  | cons c cs =>
    rw [phMatch] at h
    by_cases hc : c = Char.ofNat 123
    · rw [if_pos hc] at h
      cases hdrop : cs.dropWhile phChar with
      | nil => rw [hdrop] at h; cases h
      | cons d rest =>
        rw [hdrop] at h
        simp only at h
        by_cases hd : d = Char.ofNat 125 ∧ cs.takeWhile phChar ≠ []
        · rw [if_pos hd] at h
          injection h with h
          subst h
          refine ⟨⟨cs.takeWhile phChar, hd.2, ?_, by rw [hc, hd.1]⟩, c, _, rest, rfl, ?_⟩
          · intro ch hch
            exact (List.mem_takeWhile_imp hch)
          · have := List.takeWhile_append_dropWhile phChar cs
            rw [hdrop] at this
            rw [List.append_assoc, List.singleton_append, this]
        · rw [if_neg hd] at h; cases h
    · rw [if_neg hc] at h; cases h

/-- The tokens of a text, put together again, are the text. -/
theorem tokens_source (s : List Char) :
    ∀ k, (tokens k s).flatMap Token.source = s.drop k := by
  induction s with
  | nil => intro k; cases k <;> rfl
  | cons c cs ih =>
    intro k
    cases k with
    | succ k =>
      rw [tokens, List.drop_succ_cons]
      exact ih k
    | zero =>
      rw [tokens, List.drop_zero]
      cases hm : phMatch (c :: cs) with
      | none =>
        simp only [List.flatMap_cons, Token.source, List.singleton_append]
        rw [ih 0, List.drop_zero]
      | some m =>
        obtain ⟨_, c', m', rest, hmeq, hs⟩ := phMatch_some _ _ hm
        simp only [List.flatMap_cons, Token.source]
        rw [ih (m.length - 1)]
        injection hs with hc hcs
        subst hmeq
        rw [hcs]
        simp [hc]

/-- Every placeholder token is a placeholder. -/
theorem tokens_placeholder (s : List Char) :
    ∀ k m, Token.placeholder m ∈ tokens k s → IsPlaceholder m := by
  induction s with
  | nil => intro k m h; cases k <;> simp [tokens] at h
  | cons c cs ih =>
    intro k m h
    cases k with
    | succ k =>
      rw [tokens] at h
      exact ih k m h
    | zero =>
      rw [tokens] at h
      cases hm : phMatch (c :: cs) with
      | none =>
        rw [hm] at h
        simp only [List.mem_cons] at h
        rcases h with h | h
        · cases h
        · exact ih 0 m h
      | some m0 =>
        rw [hm] at h
        simp only [List.mem_cons] at h
        rcases h with h | h
        · injection h with h
          subst h
          exact (phMatch_some _ _ hm).1
        · exact ih _ m h

/-- The closure of `Text`, whose counter stops at `len(args)`, replaces the
`i`-th match as the specification says. -/
theorem ReplaceAllStringFunc_eq_substitute {α : Type} (sprint : α → String) (args : List α)
    (s : List Char) :
    ∀ k idx i, idx = min i args.length →
      ReplaceAllStringFunc (replaceArg sprint args) k idx s
        = substitute sprint args i (tokens k s) := by
  induction s with
  | nil => intro k idx i _; cases k <;> rfl
  | cons c cs ih =>
    intro k idx i hidx
    cases k with
    | succ k =>
      rw [ReplaceAllStringFunc, tokens]
      exact ih k idx i hidx
    | zero =>
      rw [ReplaceAllStringFunc, tokens]
      cases hm : phMatch (c :: cs) with
      | none =>
        simp only [substitute]
        rw [ih 0 idx i hidx]
      | some m =>
        simp only [substitute]
        by_cases hi : i < args.length
        · have hidx' : idx = i := by omega
          subst hidx'
          have hget : args.get? idx = some (args.get ⟨idx, hi⟩) := List.get?_eq_get hi
          have hrepl : replaceArg sprint args idx m
              = ((sprint (args.get ⟨idx, hi⟩)).data, idx + 1) := by
            unfold replaceArg
            rw [if_pos hi, hget]
          rw [hrepl, hget]
          simp only
          rw [ih (m.length - 1) (idx + 1) (idx + 1) (by omega)]
        · have hidx' : idx = args.length := by omega
          have hget : args.get? i = none := List.get?_eq_none.2 (by omega)
          have hrepl : replaceArg sprint args idx m = (m, idx) := by
            unfold replaceArg
            rw [if_neg (by omega)]
          rw [hrepl, hget]
          simp only
          rw [ih (m.length - 1) idx (i + 1) (by omega)]

theorem substitute_nil {α : Type} (sprint : α → String) (ts : List Token) :
    ∀ i, substitute sprint ([] : List α) i ts = ts.flatMap Token.source := by
  induction ts with
  | nil => intro i; rfl
  | cons t ts ih =>
    intro i
    cases t with
    | text c => simp [substitute, Token.source, ih]
    | placeholder m => simp [substitute, Token.source, ih]

/-- C13: for a key that is not in the catalog `Text` returns the key between
`⟦` and `⟧`; for a key whose text is `s` it returns `s` with the `i`-th
placeholder match, left to right, replaced by the textual form of `args[i]`
when `i < len(args)` and left as it is otherwise, where the matches and the
characters between them make up `s` and every match is a brace-enclosed,
non-empty run of letters, digits, `_`, `.` and `-`. -/
theorem Text_substitutes_in_order {α : Type} (sprint : α → String) (c : Catalog)
    (key : String) (args : List α) :
    (c key = none → Catalog.Text sprint c key args = "⟦" ++ key ++ "⟧") ∧
    (∀ s, c key = some s →
      Catalog.Text sprint c key args
        = String.mk (substitute sprint args 0 (tokens 0 s.data)) ∧
      (tokens 0 s.data).flatMap Token.source = s.data ∧
      ∀ m, Token.placeholder m ∈ tokens 0 s.data → IsPlaceholder m) := by
  constructor
  · intro h
    unfold Catalog.Text
    rw [h]
  · intro s h
    refine ⟨?_, by rw [tokens_source, List.drop_zero], tokens_placeholder s.data 0⟩
    unfold Catalog.Text
    rw [h]
    simp only
    by_cases hargs : args.length = 0
    · rw [if_pos hargs]
      have hnil : args = [] := List.length_eq_zero.1 hargs
      subst hnil
      rw [substitute_nil, tokens_source, List.drop_zero]
    · rw [if_neg hargs, ReplaceAllStringFunc_eq_substitute sprint args s.data 0 0 0 (by simp)]

/-- C13 on the catalog with the key `hud`: two arguments fill the first two of
its three placeholders, and a key that is not there comes back in brackets. -/
theorem Text_substitutes_in_order_witness :
    hudCatalog "hud" = some "\x7bplayer\x7d: \x7bhp\x7d/\x7bmax\x7d" ∧
    Catalog.Text id hudCatalog "hud" ["Ann", "7"]
      = String.mk (substitute id ["Ann", "7"] 0
          (tokens 0 "\x7bplayer\x7d: \x7bhp\x7d/\x7bmax\x7d".data)) ∧
    Catalog.Text id hudCatalog "hud" ["Ann", "7"] = "Ann: 7/\x7bmax\x7d" ∧
    hudCatalog "title" = none ∧
    Catalog.Text id hudCatalog "title" ["Ann", "7"] = "⟦" ++ "title" ++ "⟧" :=
  ⟨by decide,
   ((Text_substitutes_in_order id hudCatalog "hud" ["Ann", "7"]).2 _ (by decide)).1,
   by decide, by decide,
   (Text_substitutes_in_order id hudCatalog "title" ["Ann", "7"]).1 (by decide)⟩

end Engine
